import Mathlib

/-!
Shallow embedding of the `rustworld` artificial-life engine
(`src/simulation.rs`, `src/neural_network.rs`) and proofs about it.

Conventions used throughout:
* Rust `usize`/`u16`/`u8` values are modelled as `Nat`; wrap-around or
  saturation is written explicitly (`% 65536`, `satAdd`, Nat monus) exactly
  where the source performs `saturating_add` / `saturating_sub` / overflowing
  `+=` (release-mode wrapping semantics).
* Code that can panic (`expect`, slice indexing) is modelled in `Option`,
  with `none` standing for the abort.
* The process-wide random source (`fastrand`) is modelled as an explicitly
  threaded list of raw draws; each bounded draw reduces the next raw value
  into the requested range, so exactly the in-range values are producible.
* `f32` neuron signals are modelled over `ℚ`; the decision logic proved about
  only uses the ordered-field comparisons that `f32` shares on these values.
* `HashMap<Position, Creature>` is modelled as an association list with the
  map operations used by the source (`get`/`get_mut`, `insert`,
  `entry().or_insert`, `remove`, `contains_key`, `get_disjoint_mut`).
-/

namespace RW

/-- Largest value of a 64-bit `usize`; `saturating_add` clamps here. -/
def USIZE_MAX : Nat := 2 ^ 64 - 1

/-- Rust `usize::saturating_add` on the `Nat` model. -/
def satAdd (a b : Nat) : Nat := min (a + b) USIZE_MAX

/-- Rotation sense (`neural_network.rs`, `enum Rotation`). -/
inductive Rotation where
  | Clockwise
  | CounterClockwise
deriving DecidableEq, Repr

/-- Relative direction (`neural_network.rs`, `enum Location`). -/
inductive Location where
  | InFront
  | Left
  | Right
  | Behind
deriving DecidableEq, Repr

/-- Action chosen by a brain (`neural_network.rs`, `enum Action`). -/
inductive Action where
  | Idle
  | Move (location : Location)
  | Rotate (r : Rotation)
  | Eat
  | CreateMembrane (location : Location)
  | CopyDna (location : Location)
deriving DecidableEq, Repr

/-- Initial energy of a freshly constructed creature (`simulation.rs`,
`INITIAL_CREATURE_ENERGY`). -/
def INITIAL_CREATURE_ENERGY : Nat := 100

/-- Energy cost of each action (`neural_network.rs`, `Action::energy_cost`). -/
def Action.energy_cost : Action → Nat
  | .Idle => 1
  | .Move _ => 3
  | .Rotate _ => 2
  | .Eat => 2
  | .CreateMembrane _ => INITIAL_CREATURE_ENERGY + 5
  | .CopyDna _ => 10

/-- RGB colour (`simulation.rs`, `struct Color`); channels are `u8`. -/
structure Color where
  r : Nat
  g : Nat
  b : Nat
deriving DecidableEq, Repr

/-- Sensing neuron variants (`neural_network.rs`, `enum InputNeuron`). -/
inductive InputNeuron where
  | AlwaysActive
  | Random
  | Feeler (location : Location)
  | Eye (location : Option Location) (color : Color)
deriving DecidableEq, Repr

/-- A neuron is tagged Input (sensing) or Output (acting)
(`neural_network.rs`, `enum Neuron`). -/
inductive Neuron where
  | Input (i : InputNeuron)
  | Output (a : Action)
deriving DecidableEq, Repr

/-- Source `Neuron::has_output`: true exactly for `Input` neurons (an input
neuron produces an output signal). -/
def Neuron.has_output : Neuron → Bool
  | .Input _ => true
  | .Output _ => false

/-- Source `Neuron::has_input`: true exactly for `Output` neurons (an output
neuron accepts an input signal). -/
def Neuron.has_input : Neuron → Bool
  | .Input _ => false
  | .Output _ => true

/-- Directed connection between neuron indices (`neural_network.rs`,
`struct NeuralConnection`); fields are `u8` in the source. -/
structure NeuralConnection where
  source : Nat
  destination : Nat
deriving DecidableEq, Repr

/-- Neuron-collection capacity (`NEURON_COUNT`). -/
def NEURON_COUNT : Nat := 16

/-- Minimum generated neuron count (`MIN_GENERATED_NEURONS`). -/
def MIN_GENERATED_NEURONS : Nat := 6

/-- Connection capacity (`CONNECTION_COUNT`). -/
def CONNECTION_COUNT : Nat := 16

/-- A brain (`neural_network.rs`, `struct NeuralNetwork`). -/
structure NeuralNetwork where
  neurons : List Neuron
  connections : List NeuralConnection
deriving DecidableEq, Repr

/-- The random source: a supply of raw natural-number draws (an exhausted
supply keeps yielding 0, which is one admissible stream). -/
def randNat : List Nat → Nat × List Nat
  | [] => (0, [])
  | x :: xs => (x, xs)

/-- Model of `fastrand::usize(lo..=hi)` / `fastrand::u8(lo..=hi)`: reduce the
next raw draw into the inclusive range. -/
def randRangeIncl (lo hi : Nat) (r : List Nat) : Nat × List Nat :=
  let (x, r) := randNat r
  (lo + x % (hi - lo + 1), r)

/-- Model of an exclusive-upper-bound draw `fastrand::u8(0..n)` /
`fastrand::usize(0..n)` (all call sites have `0 < n`). -/
def randBelow (n : Nat) (r : List Nat) : Nat × List Nat :=
  let (x, r) := randNat r
  (x % n, r)

/-- Source `Location::randomize` (`fastrand::u8(0..4)`). -/
def Location.randomize (r : List Nat) : Location × List Nat :=
  let (x, r) := randBelow 4 r
  (match x with
   | 0 => Location.InFront
   | 1 => Location.Left
   | 2 => Location.Right
   | _ => Location.Behind, r)

/-- Source `Rotation::randomize` (`fastrand::bool`). -/
def Rotation.randomize (r : List Nat) : Rotation × List Nat :=
  let (x, r) := randNat r
  (if x % 2 = 1 then Rotation.Clockwise else Rotation.CounterClockwise, r)

/-- Source `Color::randomize`: three draws of `fastrand::u8(0..255)` (upper
bound exclusive, so channels range over 0..=254). -/
def Color.randomize (r : List Nat) : Color × List Nat :=
  let (cr, r) := randBelow 255 r
  let (cg, r) := randBelow 255 r
  let (cb, r) := randBelow 255 r
  (⟨cr, cg, cb⟩, r)

/-- Source `Neuron::randomize`: a 10-way discriminant draw
(`fastrand::u8(0..=9)`) plus the sub-draws of the selected variant. The
discriminant is always at most 9, so the final catch-all arm is the `9 =>
CopyDna` arm of the source (whose own `_` arm is `unreachable!`). -/
def Neuron.randomize (r : List Nat) : Neuron × List Nat :=
  let (t, r) := randRangeIncl 0 9 r
  match t with
  | 0 => (.Input .AlwaysActive, r)
  | 1 => (.Input .Random, r)
  | 2 =>
    let (l, r) := Location.randomize r
    (.Input (.Feeler l), r)
  | 3 =>
    let (e, r) := randBelow 5 r
    let l : Option Location :=
      match e with
      | 0 => some .InFront
      | 1 => some .Left
      | 2 => some .Right
      | 3 => some .Behind
      | _ => none
    let (c, r) := Color.randomize r
    (.Input (.Eye l c), r)
  | 4 => (.Output .Idle, r)
  | 5 => (.Output .Eat, r)
  | 6 =>
    let (l, r) := Location.randomize r
    (.Output (.Move l), r)
  | 7 =>
    let (ro, r) := Rotation.randomize r
    (.Output (.Rotate ro), r)
  | 8 =>
    let (l, r) := Location.randomize r
    (.Output (.CreateMembrane l), r)
  | _ =>
    let (l, r) := Location.randomize r
    (.Output (.CopyDna l), r)

/-- The neuron-generation loop of `NeuralNetwork::randomize`: draw `n`
neurons in order. -/
def buildNeurons : Nat → List Nat → List Neuron × List Nat
  | 0, r => ([], r)
  | n + 1, r =>
    let (neuron, r) := Neuron.randomize r
    let (rest, r) := buildNeurons n r
    (neuron :: rest, r)

/-- The connection-generation loop of `NeuralNetwork::randomize`: `tries`
candidate draws; `source` is drawn below `input_neurons.len()` and
`destination` below `output_neurons.len()`; a candidate whose two partition
members denote the same neuron slot is skipped; the accumulating set is
deduplicated by the whole pair (`HashSet` in the source). -/
def genConnections (input_neurons output_neurons : List Nat) :
    Nat → List NeuralConnection → List Nat → List NeuralConnection × List Nat
  | 0, acc, r => (acc, r)
  | n + 1, acc, r =>
    let (s, r) := randBelow input_neurons.length r
    let (d, r) := randBelow output_neurons.length r
    if input_neurons.getD s 0 = output_neurons.getD d 0 then
      genConnections input_neurons output_neurons n acc r
    else
      genConnections input_neurons output_neurons n
        (if (⟨s, d⟩ : NeuralConnection) ∈ acc then acc else acc ++ [⟨s, d⟩]) r

/-- One attempt of `NeuralNetwork::randomize` (the source retries the whole
construction, by direct recursion, whenever one of the two partitions is
empty; `none` is such a rejected attempt, so the brains the program produces
are exactly the `some` results). -/
def NeuralNetwork.randomizeAttempt (r : List Nat) :
    Option NeuralNetwork × List Nat :=
  let (neuron_count, r) := randRangeIncl MIN_GENERATED_NEURONS NEURON_COUNT r
  let (neurons, r) := buildNeurons neuron_count r
  let input_neurons :=
    neurons.enum.filterMap fun p => if p.2.has_input then some p.1 else none
  let output_neurons :=
    neurons.enum.filterMap fun p => if p.2.has_output then some p.1 else none
  if output_neurons.isEmpty || input_neurons.isEmpty then
    (none, r)
  else
    let min_tries := output_neurons.length
    let (tries, r) :=
      randRangeIncl min_tries (min CONNECTION_COUNT (output_neurons.length * 2)) r
    let (conns, r) := genConnections input_neurons output_neurons tries [] r
    (some ⟨neurons, conns⟩, r)

/-- Neuron signal state (`neural_network.rs`, `struct NeuronValue`); the
source fields are `f32`, modelled over `ℚ`. -/
structure NeuronValue where
  input : ℚ
  output : ℚ
deriving DecidableEq, Repr

/-- One propagation step of `NeuralTick::calculate_action`: add the source
neuron slot's output to the destination slot's accumulated input (the
connection fields are used directly as indices into the state collection). -/
def propagateStep (states : List NeuronValue) (connection : NeuralConnection) :
    List NeuronValue :=
  let source_value := (states.getD connection.source ⟨0, 0⟩).output
  let dv := states.getD connection.destination ⟨0, 0⟩
  states.set connection.destination { dv with input := dv.input + source_value }

/-- The whole propagation pass: one application of every connection, in
order. -/
def propagate (states : List NeuronValue) (connections : List NeuralConnection) :
    List NeuronValue :=
  connections.foldl propagateStep states

/-- One step of the decision loop of `NeuralTick::calculate_action`: an
acting neuron whose accumulated input strictly exceeds the best impulse seen
so far takes over. -/
def decideStep (acc : Action × ℚ) (pr : Neuron × NeuronValue) : Action × ℚ :=
  match pr.1 with
  | .Input _ => acc
  | .Output neuron_action =>
    if acc.2 < pr.2.input then (neuron_action, pr.2.input) else acc

/-- Source `NeuralTick::calculate_action`, given the seeded neuron states
(the seeding phase reads the world and the thread-local random source and is
supplied here as data). The source loops `i` over the state indices reading
`net.neurons[i]`; seeding produces exactly one state per neuron, which the
`zip` mirrors. -/
def NeuralTick.calculate_action (net : NeuralNetwork) (states : List NeuronValue) :
    Action :=
  let propagated := propagate states net.connections
  ((net.neurons.zip propagated).foldl decideStep (Action.Idle, 0)).1

/-- The action wrapped by an acting neuron (sensing neurons wrap none; the
decision loop never reads an action from them, `Idle` is a placeholder). -/
def outputAction : Neuron → Action
  | .Input _ => .Idle
  | .Output a => a

/-- Running maximum of the accumulated inputs of the acting neurons of a
zipped neuron/state list, started from a floor value (the decision loop
starts its best impulse at 0). -/
def runMax (l : List (Neuron × NeuronValue)) (v : ℚ) : ℚ :=
  l.foldl
    (fun m pr =>
      match pr.1 with
      | .Input _ => m
      | .Output _ => max m pr.2.input) v

/-- Grid position (`simulation.rs`, `struct Position`); `x`, `y` are
`usize`. -/
structure Position where
  x : Nat
  y : Nat
deriving DecidableEq, Repr

/-- Source `Position::north` (`saturating_sub`, which Nat monus is). -/
def Position.north (p : Position) (amount : Nat) : Position :=
  ⟨p.x, p.y - amount⟩

/-- Source `Position::south` (`saturating_add`). -/
def Position.south (p : Position) (amount : Nat) : Position :=
  ⟨p.x, satAdd p.y amount⟩

/-- Source `Position::east` (`saturating_add`). -/
def Position.east (p : Position) (amount : Nat) : Position :=
  ⟨satAdd p.x amount, p.y⟩

/-- Source `Position::west` (`saturating_sub`). -/
def Position.west (p : Position) (amount : Nat) : Position :=
  ⟨p.x - amount, p.y⟩

/-- Facing (`simulation.rs`, `enum CardinalDirection`). -/
inductive CardinalDirection where
  | North
  | East
  | South
  | West
deriving DecidableEq, Repr

/-- Source `Position::cardinal`. -/
def Position.cardinal (p : Position) (location : CardinalDirection) (amount : Nat) :
    Position :=
  match location with
  | .North => p.north amount
  | .South => p.south amount
  | .East => p.east amount
  | .West => p.west amount

/-- Source `CardinalDirection::rotate` (state returned instead of mutated in
place). -/
def CardinalDirection.rotate (c : CardinalDirection) (r : Rotation) :
    CardinalDirection :=
  match r with
  | .Clockwise =>
    match c with
    | .North => .East
    | .East => .South
    | .South => .West
    | .West => .North
  | .CounterClockwise =>
    match c with
    | .North => .West
    | .East => .North
    | .South => .East
    | .West => .South

/-- Source `Location::to_cardinal`: resolve a relative direction against a
facing. -/
def Location.to_cardinal (l : Location) (look_direction : CardinalDirection) :
    CardinalDirection :=
  match l, look_direction with
  | .InFront, cardinal => cardinal
  | .Left, .North => .West
  | .Left, .West => .South
  | .Left, .South => .East
  | .Left, .East => .North
  | .Right, .North => .East
  | .Right, .East => .South
  | .Right, .South => .West
  | .Right, .West => .North
  | .Behind, .North => .South
  | .Behind, .South => .North
  | .Behind, .West => .East
  | .Behind, .East => .West

/-- Food state of a passable tile (`simulation.rs`,
`struct AccessableTileData`). -/
structure AccessableTileData where
  food_1 : Bool
deriving DecidableEq, Repr

/-- Terrain (`simulation.rs`, `enum Tile`). -/
inductive Tile where
  | Ground (data : AccessableTileData)
  | Lava
deriving DecidableEq, Repr

/-- Source `Tile::default`: ground bearing food. -/
def Tile.default : Tile := .Ground ⟨true⟩

/-- Source `Tile::can_contain_creature`: only ground is passable. -/
def Tile.can_contain_creature : Tile → Bool
  | .Ground _ => true
  | .Lava => false

/-- Per-agent state (`simulation.rs`, `struct Creature`); `energy` is `u16`,
`born` and `offspring` are `u64` (their overflow needs more than `2 ^ 64`
single steps and is not modelled). -/
structure Creature where
  born : Nat
  energy : Nat
  rotation : CardinalDirection
  brain : Option NeuralNetwork
  offspring : Nat
deriving DecidableEq, Repr

/-- Source `Creature::new`. -/
def Creature.new (born : Nat) (rotation : CardinalDirection)
    (brain : Option NeuralNetwork) : Creature :=
  { born := born, energy := INITIAL_CREATURE_ENERGY, rotation := rotation,
    brain := brain, offspring := 0 }

/-- Source `Creature::relative_position`: one step in the relative direction
resolved against the creature's facing. -/
def Creature.relative_position (c : Creature) (position : Position)
    (location : Location) : Position :=
  position.cardinal (location.to_cardinal c.rotation) 1

/-- World configuration (`simulation.rs`, `struct WorldSettings`); both
fields are `u16` counts. -/
structure WorldSettings where
  food_regen_rate : Nat
  creature_generation_rate : Nat
deriving DecidableEq, Repr

/-- Association-list model of `HashMap<Position, Creature>` lookup
(`HashMap::get`). -/
def lookupKey {α : Type} : List (Position × α) → Position → Option α
  | [], _ => none
  | (k, v) :: rest, p => if k = p then some v else lookupKey rest p

/-- Model of `HashMap::contains_key`. -/
def containsKey {α : Type} (l : List (Position × α)) (p : Position) : Bool :=
  (lookupKey l p).isSome

/-- Model of `HashMap::remove` (drops the entry of the key). -/
def eraseKey {α : Type} : List (Position × α) → Position → List (Position × α)
  | [], _ => []
  | (k, v) :: rest, p =>
    if k = p then eraseKey rest p else (k, v) :: eraseKey rest p

/-- In-place mutation through `HashMap::get_mut`: replace the value stored at
the key, leaving the key set unchanged. -/
def updateKey {α : Type} : List (Position × α) → Position → α → List (Position × α)
  | [], _, _ => []
  | (k, v) :: rest, p, nv =>
    if k = p then (p, nv) :: updateKey rest p nv else (k, v) :: updateKey rest p nv

/-- Model of `HashMap::insert`. -/
def insertKey {α : Type} (l : List (Position × α)) (p : Position) (v : α) :
    List (Position × α) :=
  (p, v) :: eraseKey l p

/-- Model of `HashMap::entry(k).or_insert(v)`: insert only when absent. -/
def orInsertKey {α : Type} (l : List (Position × α)) (p : Position) (v : α) :
    List (Position × α) :=
  if containsKey l p then l else (p, v) :: l

/-- Key list of the association-list map. -/
def keysOf {α : Type} (l : List (Position × α)) : List Position :=
  l.map Prod.fst

/-- The world (`simulation.rs`, `struct World`); `current_tick` is `u64`. -/
structure World where
  width : Nat
  height : Nat
  tiles : List Tile
  creatures : List (Position × Creature)
  current_tick : Nat
  settings : WorldSettings
deriving DecidableEq, Repr

/-- Source `World::check_bounds`. -/
def World.check_bounds (w : World) (position : Position) : Bool :=
  decide (position.x < w.width ∧ position.y < w.height)

/-- Source `World::get_tile`: bounds-checked row-major lookup. -/
def World.get_tile (w : World) (position : Position) : Option Tile :=
  if w.check_bounds position then
    w.tiles.get? (position.y * w.width + position.x)
  else
    none

/-- Repeated `tiles[i] = border` assignments of `World::new`, in loop
order. -/
def stampAll (tiles : List Tile) (idxs : List Nat) (border : Tile) : List Tile :=
  idxs.foldl (fun ts i => ts.set i border) tiles

/-- The indices written by the two border loops of `World::new`: first the
top and bottom rows (`for x in 0..width`), then the left and right columns of
the interior rows (`for y in 1..height-1`). -/
def borderIndices (width height : Nat) : List Nat :=
  ((List.range width).flatMap fun x => [x, width * (height - 1) + x]) ++
  ((List.range' 1 (height - 1 - 1)).flatMap fun y => [y * width, y * width + width - 1])

/-- Source `World::new`: a `width*height` grid of default tiles with the
border ring stamped, no creatures, tick counter 0. -/
def World.new (width height : Nat) (border : Tile) (settings : WorldSettings) :
    World :=
  let tiles := stampAll (List.replicate (width * height) Tile.default) (borderIndices width height) border
  { width := width, height := height, tiles := tiles,
    creatures := [], current_tick := 0, settings := settings }

/-- Source `World::kill_creature`. -/
def World.kill_creature (w : World) (position : Position) : World :=
  { w with creatures := eraseKey w.creatures position }

/-- Source `World::move_creature`. `none` models the `expect` panic on an
out-of-bounds destination (the caller checks bounds first). When the
destination tile cannot contain a creature the function returns with the
creature already removed: it dies to terrain. -/
def World.move_creature (w : World) (old_position new_position : Position) :
    Option World :=
  if containsKey w.creatures new_position then some w
  else
    match lookupKey w.creatures old_position with
    | none => some w
    | some creature =>
      let w1 : World := { w with creatures := eraseKey w.creatures old_position }
      match w1.get_tile new_position with
      | none => none
      | some tile =>
        if tile.can_contain_creature then
          some { w1 with creatures := insertKey w1.creatures new_position creature }
        else
          some w1

/-- Source `World::spawn_creature`. `none` models the `expect` panic on an
out-of-bounds position; an impassable tile silently drops the creature; an
occupied cell keeps its present occupant (`entry().or_insert`). -/
def World.spawn_creature (w : World) (position : Position) (creature : Creature) :
    Option World :=
  match w.get_tile position with
  | none => none
  | some tile =>
    if tile.can_contain_creature then
      some { w with creatures := orInsertKey w.creatures position creature }
    else
      some w

/-- Source `World::copy_dna`. `none` models the `get_disjoint_mut` panic on
overlapping keys; when both creatures exist the destination's brain reference
is replaced by the source's. -/
def World.copy_dna (w : World) (old_position new_position : Position) :
    Option World :=
  if old_position = new_position then none
  else
    match lookupKey w.creatures old_position, lookupKey w.creatures new_position with
    | some source, some destination =>
      let destination1 : Creature := { destination with brain := source.brain }
      some { w with creatures := updateKey w.creatures new_position destination1 }
    | _, _ => some w

/-- Source `World::regenerate_food` at a drawn position: set the food flag on
a ground tile, do nothing on lava. `none` models the index panic of an
out-of-bounds position (`Position::randomize` always draws in bounds). -/
def World.regenerate_food (w : World) (position : Position) : Option World :=
  match w.tiles.get? (position.x + position.y * w.width) with
  | none => none
  | some (.Ground data) =>
    let tiles1 := w.tiles.set (position.x + position.y * w.width) (.Ground { data with food_1 := true })
    some { w with tiles := tiles1 }
  | some .Lava => some w

/-- Source `World::apply_action`. `none` models the `expect` panic on a
position without a creature and the panics reachable from the dispatched
effect. The `let` rebindings mirror the in-place mutations through the
`get_mut` borrow. -/
def World.apply_action (w : World) (position : Position) (action : Action) :
    Option World :=
  match lookupKey w.creatures position with
  | none => none
  | some creature =>
    if action.energy_cost ≤ creature.energy then
      let creature1 : Creature :=
        { creature with energy := creature.energy - action.energy_cost }
      let w1 : World := { w with creatures := updateKey w.creatures position creature1 }
      match action with
      | .Idle => some w1
      | .Eat =>
        match w1.tiles.get? (position.x + position.y * w1.width) with
        | none => none
        | some (.Ground data) =>
          if data.food_1 then
            let tiles1 := w1.tiles.set (position.x + position.y * w1.width) (.Ground { data with food_1 := false })
            let creature2 : Creature := { creature1 with energy := (creature1.energy + 50) % 65536 }
            some { w1 with tiles := tiles1, creatures := updateKey w.creatures position creature2 }
          else some w1
        | some .Lava => some w1
      | .Move location =>
        let new_position := creature1.relative_position position location
        if w1.check_bounds new_position then
          w1.move_creature position new_position
        else
          some w1
      | .Rotate r =>
        let creature2 : Creature := { creature1 with rotation := creature1.rotation.rotate r }
        some { w with creatures := updateKey w.creatures position creature2 }
      | .CreateMembrane location =>
        let spawn_position := creature1.relative_position position location
        let spawn_rotation := location.to_cardinal creature1.rotation
        let creature2 : Creature := { creature1 with offspring := creature1.offspring + 1 }
        let w2 : World := { w with creatures := updateKey w.creatures position creature2 }
        w2.spawn_creature spawn_position (Creature.new w2.current_tick spawn_rotation none)
      | .CopyDna location =>
        let copy_position := creature1.relative_position position location
        w1.copy_dna position copy_position
    else
      some (w.kill_creature position)

/-- The apply phase of `World::tick`: the collected (position, action) pairs
applied strictly in sequence. -/
def World.applyAll : World → List (Position × Action) → Option World
  | w, [] => some w
  | w, (p, a) :: rest =>
    match w.apply_action p a with
    | none => none
    | some w1 => w1.applyAll rest

/-- The spawn phase of `World::tick`: each drawn (position, facing, brain)
triple becomes a fresh creature spawned at the drawn position. -/
def World.spawnAll : World → List (Position × CardinalDirection × NeuralNetwork) →
    Option World
  | w, [] => some w
  | w, (p, rot, brain) :: rest =>
    match w.spawn_creature p (Creature.new w.current_tick rot (some brain)) with
    | none => none
    | some w1 => w1.spawnAll rest

/-- The food-regeneration phase of `World::tick`. -/
def World.regenAll : World → List Position → Option World
  | w, [] => some w
  | w, p :: rest =>
    match w.regenerate_food p with
    | none => none
    | some w1 => w1.regenAll rest

/-- Source `World::tick`, parameterised by the data the source draws inside
the tick: the decide phase only reads the world, so its collected
(position, action) list is taken as an arbitrary input (every list the
brains can produce is an instance); likewise the random spawn triples and
food-regeneration positions. The tick counter increments first. -/
def World.tick (w : World) (decided : List (Position × Action))
    (spawns : List (Position × CardinalDirection × NeuralNetwork))
    (foods : List Position) : Option World :=
  let w1 : World := { w with current_tick := w.current_tick + 1 }
  match w1.applyAll decided with
  | none => none
  | some w2 =>
    match w2.spawnAll spawns with
    | none => none
    | some w3 => w3.regenAll foods

/-- Worlds reachable from an initial world by repeated completed calls of
`tick` (an aborting tick produces no successor state). -/
inductive World.Reachable (init : World) : World → Prop where
  | base : World.Reachable init init
  | step {w w' : World} {decided : List (Position × Action)}
      {spawns : List (Position × CardinalDirection × NeuralNetwork)}
      {foods : List Position} :
      World.Reachable init w → w.tick decided spawns foods = some w' →
      World.Reachable init w'

@[simp] theorem lookupKey_nil {α : Type} (p : Position) :
    lookupKey ([] : List (Position × α)) p = none := rfl

@[simp] theorem lookupKey_cons {α : Type} (k : Position) (v : α)
    (rest : List (Position × α)) (p : Position) :
    lookupKey ((k, v) :: rest) p = if k = p then some v else lookupKey rest p := rfl

@[simp] theorem keysOf_nil {α : Type} : keysOf ([] : List (Position × α)) = [] := rfl

@[simp] theorem keysOf_cons {α : Type} (k : Position) (v : α)
    (rest : List (Position × α)) : keysOf ((k, v) :: rest) = k :: keysOf rest := rfl

theorem lookupKey_eraseKey_self {α : Type} (l : List (Position × α)) (p : Position) :
    lookupKey (eraseKey l p) p = none := by
  induction l with
  | nil => rfl
  | cons kv rest ih =>
    obtain ⟨k, v⟩ := kv
    by_cases h : k = p
    · simpa [eraseKey, h] using ih
    · simpa [eraseKey, h, lookupKey] using ih

theorem lookupKey_eraseKey_ne {α : Type} (l : List (Position × α)) (p q : Position)
    (h : q ≠ p) : lookupKey (eraseKey l p) q = lookupKey l q := by
  induction l with
  | nil => rfl
  | cons kv rest ih =>
    obtain ⟨k, v⟩ := kv
    by_cases hk : k = p
    · subst hk
      have hkq : ¬ k = q := fun hkq => h hkq.symm
      simpa [eraseKey, lookupKey, hkq] using ih
    · by_cases hq : k = q
      · subst hq; simp [eraseKey, lookupKey, hk]
      · simpa [eraseKey, lookupKey, hk, hq] using ih

theorem lookupKey_updateKey {α : Type} (l : List (Position × α)) (p : Position)
    (v : α) (q : Position) :
    lookupKey (updateKey l p v) q =
      if p = q then (lookupKey l p).map fun _ => v else lookupKey l q := by
  induction l with
  | nil => by_cases h : p = q <;> simp [updateKey, h]
  | cons kv rest ih =>
    obtain ⟨k, w⟩ := kv
    by_cases hk : k = p
    · subst hk
      by_cases hq : k = q
      · subst hq; simp [updateKey, lookupKey]
      · simp [updateKey, lookupKey, hq, ih]
    · by_cases hq : k = q
      · subst hq
        have hpq : ¬ p = k := fun hpq => hk hpq.symm
        simp [updateKey, lookupKey, hk, hpq]
      · simp [updateKey, lookupKey, hk, hq, ih]

theorem keysOf_updateKey {α : Type} (l : List (Position × α)) (p : Position) (v : α)
    (hp : p ∈ keysOf l) : keysOf (updateKey l p v) = keysOf l := by
  induction l with
  | nil => rfl
  | cons kv rest ih =>
    obtain ⟨k, w⟩ := kv
    by_cases hk : k = p
    · subst hk
      by_cases hr : k ∈ keysOf rest
      · simpa [updateKey] using ih hr
      · have hrest : updateKey rest k v = rest := by
          clear ih hp
          induction rest with
          | nil => rfl
          | cons kv2 rest2 ih2 =>
            obtain ⟨k2, w2⟩ := kv2
            by_cases h2 : k2 = k
            · exact absurd (h2 ▸ List.mem_cons_self k2 (keysOf rest2)) hr
            · have hr2 : k ∉ keysOf rest2 := fun hmem =>
                hr (List.mem_cons_of_mem k2 hmem)
              simpa [updateKey, h2] using ih2 hr2
        simp [updateKey, hrest]
    · have hp' : p ∈ keysOf rest := by
        rcases List.mem_cons.mp hp with h | h
        · exact absurd h.symm hk
        · exact h
      simpa [updateKey, hk] using ih hp'

theorem containsKey_iff_mem {α : Type} (l : List (Position × α)) (p : Position) :
    containsKey l p = true ↔ p ∈ keysOf l := by
  induction l with
  | nil => simp [containsKey]
  | cons kv rest ih =>
    obtain ⟨k, v⟩ := kv
    by_cases hk : k = p
    · subst hk; simp [containsKey, lookupKey]
    · have hpk : ¬ p = k := fun hpk => hk hpk.symm
      rw [keysOf_cons, List.mem_cons]
      simpa [containsKey, lookupKey, hk, hpk] using ih

/-- A world used in several closed sanity instances: a 3 by 3 grid with a
lava ring and a single ground cell in the middle. -/
def lavaBox (settings : WorldSettings) : World := World.new 3 3 Tile.Lava settings

/-- The claim C3 world: the minimal scenario of the spec with one low-energy
creature in the middle of a lava box. -/
def wC3 : World :=
  { lavaBox ⟨0, 0⟩ with
    creatures := [(⟨1, 1⟩, { Creature.new 0 .North none with energy := 1 })] }

/-- C3: applying any action to a creature whose energy is strictly below the
action's cost removes exactly that creature from the occupancy map and
changes nothing else in the world: tiles, dimensions, settings, tick counter
and every other creature are untouched. -/
theorem apply_action_insufficient_energy (w : World) (position : Position)
    (action : Action) (c : Creature)
    (hc : lookupKey w.creatures position = some c)
    (hlt : c.energy < action.energy_cost) :
    w.apply_action position action =
      some { w with creatures := eraseKey w.creatures position } ∧
    lookupKey (eraseKey w.creatures position) position = none ∧
    ∀ q : Position, q ≠ position →
      lookupKey (eraseKey w.creatures position) q = lookupKey w.creatures q := by
  refine ⟨?_, lookupKey_eraseKey_self _ _, fun q hq => lookupKey_eraseKey_ne _ _ _ hq⟩
  unfold World.apply_action
  rw [hc]
  simp only [if_neg (by omega : ¬ action.energy_cost ≤ c.energy)]
  rfl

/-- Witness for C3 at a concrete world: energy 1, move cost 3, the creature
is removed with the rest of the world intact. -/
theorem apply_action_insufficient_energy_witness :
    wC3.apply_action ⟨1, 1⟩ (Action.Move Location.InFront) =
      some { wC3 with creatures := eraseKey wC3.creatures ⟨1, 1⟩ } :=
  (apply_action_insufficient_energy wC3 ⟨1, 1⟩ (Action.Move Location.InFront)
    { Creature.new 0 .North none with energy := 1 } (by decide) (by decide)).1

theorem containsKey_updateKey {α : Type} (l : List (Position × α)) (p : Position)
    (v : α) (q : Position) : containsKey (updateKey l p v) q = containsKey l q := by
  unfold containsKey
  rw [lookupKey_updateKey]
  by_cases h : p = q
  · subst h
    cases lookupKey l p <;> simp
  · simp [h]

/-- Replacing a creature's energy does not change how it resolves a relative
position. -/
theorem relative_position_update_energy (c : Creature) (e : Nat) (p : Position)
    (l : Location) :
    ({ c with energy := e } : Creature).relative_position p l = c.relative_position p l := rfl

/-- The bounds check does not read the occupancy map. -/
theorem check_bounds_update_creatures (w : World) (cs : List (Position × Creature))
    (p : Position) :
    ({ w with creatures := cs } : World).check_bounds p = w.check_bounds p := rfl

/-- Tile lookup does not read the occupancy map. -/
theorem get_tile_update_creatures (w : World) (cs : List (Position × Creature))
    (p : Position) :
    ({ w with creatures := cs } : World).get_tile p = w.get_tile p := rfl

/-- C4 amended theorem: with sufficient energy, eating on a ground tile with
food clears the flag and adds 50 energy with wrapping (mod `2 ^ 16`) `u16`
addition, which agrees with plain addition by exactly 50 whenever no overflow
occurs; eating on a foodless ground tile changes neither tiles nor energy
beyond the cost deduction. -/
theorem apply_action_eat (w : World) (position : Position) (c : Creature)
    (hc : lookupKey w.creatures position = some c)
    (he : 2 ≤ c.energy) :
    (∀ data : AccessableTileData,
      w.tiles.get? (position.x + position.y * w.width) = some (.Ground data) →
      (data.food_1 = true →
        w.apply_action position .Eat =
          some { w with
            tiles := w.tiles.set (position.x + position.y * w.width) (Tile.Ground ⟨false⟩),
            creatures := updateKey w.creatures position { c with energy := (c.energy - 2 + 50) % 65536 } }) ∧
      (data.food_1 = false →
        w.apply_action position .Eat =
          some { w with
            creatures := updateKey w.creatures position { c with energy := c.energy - 2 } })) ∧
    (c.energy - 2 + 50 < 65536 → (c.energy - 2 + 50) % 65536 = c.energy - 2 + 50) := by
  constructor
  · intro data ht
    have hcost : Action.energy_cost .Eat ≤ c.energy := he
    constructor
    · intro hfood
      unfold World.apply_action
      rw [hc]
      dsimp only
      rw [if_pos hcost]
      rw [ht]
      dsimp only
      rw [hfood]
      simp [Action.energy_cost]
    · intro hfood
      unfold World.apply_action
      rw [hc]
      dsimp only
      rw [if_pos hcost]
      rw [ht]
      dsimp only
      rw [hfood]
      simp [Action.energy_cost]
  · intro hlt
    exact Nat.mod_eq_of_lt hlt

/-- The claim C4 counterexample world: a full-energy (`u16` maximum) creature
standing on food. -/
def wC4cex : World :=
  { lavaBox ⟨0, 0⟩ with
    creatures := [(⟨1, 1⟩, { Creature.new 0 .North none with energy := 65535 })] }

/-- Counterexample to C4 as stated: at energy 65535 the post-cost gain is
neither an increase by exactly 50 (which would give 65583) nor a saturating
one (which would give 65535); the stored energy wraps to 47. -/
theorem apply_action_eat_not_saturating :
    (wC4cex.apply_action ⟨1, 1⟩ Action.Eat).map
        (fun w => (lookupKey w.creatures ⟨1, 1⟩).map Creature.energy) =
      some (some 47) ∧
    ¬ (47 : Nat) = 65535 - 2 + 50 ∧
    ¬ (47 : Nat) = min (65535 - 2 + 50) 65535 := by decide

/-- The claim C4 witness world: a fresh creature standing on food. -/
def wC4 : World :=
  { lavaBox ⟨0, 0⟩ with creatures := [(⟨1, 1⟩, Creature.new 0 .North none)] }

/-- Witness for the amended C4 at a concrete world: eating with energy 100
clears the food flag and stores energy 148 = 100 - 2 + 50. -/
theorem apply_action_eat_witness :
    wC4.apply_action ⟨1, 1⟩ Action.Eat =
      some { wC4 with
        tiles := wC4.tiles.set 4 (Tile.Ground ⟨false⟩),
        creatures := updateKey wC4.creatures ⟨1, 1⟩ { Creature.new 0 .North none with energy := 148 } } :=
  ((apply_action_eat wC4 ⟨1, 1⟩ (Creature.new 0 .North none) (by decide) (by decide)).1
    ⟨true⟩ (by decide)).1 rfl

/-- C1 amended theorem: a Move with sufficient energy, after the cost
deduction, (a) is silently dropped when the target is out of bounds,
(b) silently fails with the creature staying at its old key when the target
is occupied, (c) removes the creature from the occupancy map entirely (death
by terrain) when the in-bounds unoccupied target is impassable, and
(d) relocates the entry to the target key when the in-bounds target is
unoccupied and passable. -/
theorem apply_action_move_semantics (w : World) (position : Position)
    (c : Creature) (location : Location)
    (hc : lookupKey w.creatures position = some c)
    (he : 3 ≤ c.energy) :
    (w.check_bounds (c.relative_position position location) = false →
      w.apply_action position (.Move location) =
        some { w with creatures := updateKey w.creatures position { c with energy := c.energy - 3 } }) ∧
    (containsKey w.creatures (c.relative_position position location) = true →
      w.apply_action position (.Move location) =
        some { w with creatures := updateKey w.creatures position { c with energy := c.energy - 3 } }) ∧
    (∀ t : Tile, w.check_bounds (c.relative_position position location) = true →
      containsKey w.creatures (c.relative_position position location) = false →
      w.get_tile (c.relative_position position location) = some t →
      (t.can_contain_creature = false →
        w.apply_action position (.Move location) =
          some { w with creatures := eraseKey (updateKey w.creatures position { c with energy := c.energy - 3 }) position }) ∧
      (t.can_contain_creature = true →
        w.apply_action position (.Move location) =
          some { w with creatures := insertKey (eraseKey (updateKey w.creatures position { c with energy := c.energy - 3 }) position) (c.relative_position position location) { c with energy := c.energy - 3 } })) := by
  have hcost : Action.energy_cost (.Move location) ≤ c.energy := he
  have hlu : lookupKey (updateKey w.creatures position { c with energy := c.energy - 3 }) position =
      some { c with energy := c.energy - 3 } := by
    rw [lookupKey_updateKey]; simp [hc]
  refine ⟨?_, ?_, ?_⟩
  · intro hb
    unfold World.apply_action
    rw [hc]
    dsimp only
    rw [if_pos hcost]
    simp only [Action.energy_cost, relative_position_update_energy, check_bounds_update_creatures]
    rw [hb]
    simp
  · intro hocc
    unfold World.apply_action
    rw [hc]
    dsimp only
    rw [if_pos hcost]
    simp only [Action.energy_cost, relative_position_update_energy, check_bounds_update_creatures]
    by_cases hb : w.check_bounds (c.relative_position position location) = true
    · rw [hb]
      simp only [if_pos rfl]
      unfold World.move_creature
      dsimp only
      rw [containsKey_updateKey, hocc]
      simp
    · rw [show w.check_bounds (c.relative_position position location) = false by simpa using hb]
      simp
  · intro t hb hocc ht
    unfold World.apply_action
    rw [hc]
    dsimp only
    rw [if_pos hcost]
    simp only [Action.energy_cost, relative_position_update_energy, check_bounds_update_creatures]
    rw [hb]
    simp only [if_pos rfl]
    unfold World.move_creature
    dsimp only
    rw [containsKey_updateKey, hocc]
    simp only [Bool.false_eq_true, if_false]
    rw [hlu]
    dsimp only
    simp only [get_tile_update_creatures]
    rw [ht]
    dsimp only
    constructor
    · intro hpass
      rw [hpass]
      simp
    · intro hpass
      rw [hpass]
      simp

/-- The claim C1 counterexample world: a single healthy creature in the lava
box facing the lava ring. -/
def wC1 : World :=
  { lavaBox ⟨0, 0⟩ with creatures := [(⟨1, 1⟩, Creature.new 0 .North none)] }

/-- Counterexample to C1 as stated: the move target (1,0) is in bounds,
unoccupied and impassable, yet after the move the creature does not remain at
its old key — the occupancy map is empty, the creature died to terrain. -/
theorem move_into_lava_removes_creature :
    wC1.check_bounds ((Creature.new 0 .North none).relative_position ⟨1, 1⟩ .InFront) = true ∧
    containsKey wC1.creatures ((Creature.new 0 .North none).relative_position ⟨1, 1⟩ .InFront) = false ∧
    wC1.get_tile ((Creature.new 0 .North none).relative_position ⟨1, 1⟩ .InFront) = some Tile.Lava ∧
    (wC1.apply_action ⟨1, 1⟩ (Action.Move .InFront)).map
        (fun w => containsKey w.creatures ⟨1, 1⟩) = some false := by decide

/-- A 4 by 3 lava box with two interior ground cells, used to exhibit a
successful move. -/
def wC1w : World :=
  { World.new 4 3 Tile.Lava ⟨0, 0⟩ with
    creatures := [(⟨1, 1⟩, Creature.new 0 .East none)] }

/-- Witness for the amended C1 at a concrete world: moving east into the free
ground cell (2,1) relocates the entry. -/
theorem apply_action_move_semantics_witness :
    wC1w.apply_action ⟨1, 1⟩ (Action.Move Location.InFront) =
      some { wC1w with creatures := insertKey (eraseKey (updateKey wC1w.creatures ⟨1, 1⟩ { Creature.new 0 .East none with energy := 97 }) ⟨1, 1⟩) ⟨2, 1⟩ { Creature.new 0 .East none with energy := 97 } } :=
  ((apply_action_move_semantics wC1w ⟨1, 1⟩ (Creature.new 0 .East none) Location.InFront
    (by decide) (by decide)).2.2 (Tile.Ground ⟨true⟩) (by decide) (by decide) (by decide)).2 rfl

/-- C8: a reproduction with sufficient energy always deducts the cost 105 =
initial energy + 5 and increments the parent's offspring counter by exactly
one, even when placement fails; a newly constructed creature — brainless,
with fresh initial energy, born this tick, facing the relative direction
resolved against the parent's facing — appears at the in-bounds target cell
exactly when that cell is passable and unoccupied. -/
theorem apply_action_create_membrane (w : World) (position : Position)
    (c : Creature) (location : Location) (t : Tile)
    (hc : lookupKey w.creatures position = some c)
    (he : INITIAL_CREATURE_ENERGY + 5 ≤ c.energy)
    (ht : w.get_tile (c.relative_position position location) = some t) :
    (t.can_contain_creature = false →
      w.apply_action position (.CreateMembrane location) =
        some { w with creatures := updateKey w.creatures position { c with energy := c.energy - 105, offspring := c.offspring + 1 } }) ∧
    (t.can_contain_creature = true →
      containsKey w.creatures (c.relative_position position location) = true →
      w.apply_action position (.CreateMembrane location) =
        some { w with creatures := updateKey w.creatures position { c with energy := c.energy - 105, offspring := c.offspring + 1 } }) ∧
    (t.can_contain_creature = true →
      containsKey w.creatures (c.relative_position position location) = false →
      w.apply_action position (.CreateMembrane location) =
        some { w with creatures := (c.relative_position position location, Creature.new w.current_tick (location.to_cardinal c.rotation) none) :: updateKey w.creatures position { c with energy := c.energy - 105, offspring := c.offspring + 1 } }) := by
  have hcost : Action.energy_cost (.CreateMembrane location) ≤ c.energy := he
  refine ⟨?_, ?_, ?_⟩
  · intro hpass
    unfold World.apply_action
    rw [hc]
    dsimp only
    rw [if_pos hcost]
    simp only [Action.energy_cost, relative_position_update_energy]
    unfold World.spawn_creature
    simp only [get_tile_update_creatures]
    rw [ht]
    dsimp only
    rw [hpass]
    simp [INITIAL_CREATURE_ENERGY]
  · intro hpass hocc
    unfold World.apply_action
    rw [hc]
    dsimp only
    rw [if_pos hcost]
    simp only [Action.energy_cost, relative_position_update_energy]
    unfold World.spawn_creature
    simp only [get_tile_update_creatures]
    rw [ht]
    dsimp only
    rw [hpass]
    simp only [if_pos rfl]
    unfold orInsertKey
    rw [containsKey_updateKey, hocc]
    simp [INITIAL_CREATURE_ENERGY]
  · intro hpass hocc
    unfold World.apply_action
    rw [hc]
    dsimp only
    rw [if_pos hcost]
    simp only [Action.energy_cost, relative_position_update_energy]
    unfold World.spawn_creature
    simp only [get_tile_update_creatures]
    rw [ht]
    dsimp only
    rw [hpass]
    simp only [if_pos rfl]
    unfold orInsertKey
    rw [containsKey_updateKey, hocc]
    simp [INITIAL_CREATURE_ENERGY]

/-- The claim C8 witness world: an energetic creature facing the free ground
cell of a 4 by 3 lava box. -/
def wC8 : World :=
  { World.new 4 3 Tile.Lava ⟨0, 0⟩ with
    creatures := [(⟨1, 1⟩, { Creature.new 0 .East none with energy := 200 })] }

/-- Witness for C8 at a concrete world: reproducing into the empty adjacent
passable cell (2,1) yields exactly one new brainless fresh creature there and
the parent's offspring counter becomes 1. -/
theorem apply_action_create_membrane_witness :
    wC8.apply_action ⟨1, 1⟩ (Action.CreateMembrane Location.InFront) =
      some { wC8 with creatures := (⟨2, 1⟩, Creature.new 0 CardinalDirection.East none) :: updateKey wC8.creatures ⟨1, 1⟩ { Creature.new 0 .East none with energy := 95, offspring := 1 } } :=
  (apply_action_create_membrane wC8 ⟨1, 1⟩ { Creature.new 0 .East none with energy := 200 }
    Location.InFront (Tile.Ground ⟨true⟩) (by decide) (by decide) (by decide)).2.2 rfl (by decide)

/-- C2: evaluation of the generator at an explicit draw sequence (neuron
count 6; one sensing neuron at slot 0 followed by five acting neurons; one
candidate connection drawn as source 3, destination 0). The resulting brain
has exactly one connection; the neuron stored at its source index is NOT a
sensing neuron (`has_output` is false, it is an acting neuron) and the neuron
stored at its destination index is NOT an acting neuron (`has_input` is
false): the generator stores partition-local sub-indices, while
`calculate_action` consumes them as positions in the neuron collection. -/
theorem randomize_connection_partition_local :
    ((NeuralNetwork.randomizeAttempt [0, 0, 4, 4, 4, 4, 4, 0, 3, 0]).1.map fun net =>
      net.connections.map fun conn =>
        ((net.neurons.getD conn.source (.Output .Idle)).has_output,
         (net.neurons.getD conn.destination (.Input .AlwaysActive)).has_input)) =
      some [(false, false)] := by decide

theorem randRangeIncl_bounds (lo hi : Nat) (r : List Nat) (h : lo ≤ hi) :
    lo ≤ (randRangeIncl lo hi r).1 ∧ (randRangeIncl lo hi r).1 ≤ hi := by
  unfold randRangeIncl
  rcases hx : randNat r with ⟨x, r1⟩
  dsimp only
  have hmod : x % (hi - lo + 1) < hi - lo + 1 := Nat.mod_lt _ (Nat.succ_pos _)
  omega

theorem buildNeurons_length (n : Nat) (r : List Nat) :
    (buildNeurons n r).1.length = n := by
  induction n generalizing r with
  | zero => rfl
  | succ n ih =>
    unfold buildNeurons
    rcases hn : Neuron.randomize r with ⟨ne, r1⟩
    dsimp only
    rcases hb : buildNeurons n r1 with ⟨rest, r2⟩
    dsimp only
    simpa [hb] using ih r1

theorem genConnections_nodup (inp outp : List Nat) (n : Nat)
    (acc : List NeuralConnection) (r : List Nat) (hacc : acc.Nodup) :
    (genConnections inp outp n acc r).1.Nodup := by
  induction n generalizing acc r with
  | zero => exact hacc
  | succ n ih =>
    unfold genConnections
    rcases hs : randBelow inp.length r with ⟨s, r1⟩
    dsimp only
    rcases hd : randBelow outp.length r1 with ⟨d, r2⟩
    dsimp only
    split
    · exact ih acc r2 hacc
    · split
      · exact ih acc r2 hacc
      · rename_i hmem
        refine ih _ r2 ?_
        rw [List.nodup_append]
        exact ⟨hacc, List.nodup_singleton _, by simpa using hmem⟩

theorem genConnections_length (inp outp : List Nat) (n : Nat)
    (acc : List NeuralConnection) (r : List Nat) :
    (genConnections inp outp n acc r).1.length ≤ acc.length + n := by
  induction n generalizing acc r with
  | zero => simp [genConnections]
  | succ n ih =>
    unfold genConnections
    rcases hs : randBelow inp.length r with ⟨s, r1⟩
    dsimp only
    rcases hd : randBelow outp.length r1 with ⟨d, r2⟩
    dsimp only
    split
    · calc (genConnections inp outp n acc r2).1.length ≤ acc.length + n := ih acc r2
        _ ≤ acc.length + (n + 1) := by omega
    · split
      · calc (genConnections inp outp n acc r2).1.length ≤ acc.length + n := ih acc r2
          _ ≤ acc.length + (n + 1) := by omega
      · calc (genConnections inp outp n (acc ++ [⟨s, d⟩]) r2).1.length
            ≤ (acc ++ [(⟨s, d⟩ : NeuralConnection)]).length + n := ih _ r2
          _ ≤ acc.length + (n + 1) := by
              rw [List.length_append, List.length_singleton]
              omega

/-- C6: every brain produced by a successful randomized-generation attempt
has between 6 and 16 neurons, at least one sensing (Input) neuron, at least
one acting (Output) neuron, and at most 16 connections with no duplicate
(source, destination) pair. -/
theorem randomizeAttempt_valid (r r' : List Nat) (net : NeuralNetwork)
    (h : NeuralNetwork.randomizeAttempt r = (some net, r')) :
    MIN_GENERATED_NEURONS ≤ net.neurons.length ∧
    net.neurons.length ≤ NEURON_COUNT ∧
    (∃ n ∈ net.neurons, ∃ i, n = Neuron.Input i) ∧
    (∃ n ∈ net.neurons, ∃ a, n = Neuron.Output a) ∧
    net.connections.length ≤ CONNECTION_COUNT ∧
    net.connections.Nodup := by
  unfold NeuralNetwork.randomizeAttempt at h
  rcases h1 : randRangeIncl MIN_GENERATED_NEURONS NEURON_COUNT r with ⟨nc, r1⟩
  rw [h1] at h
  dsimp only at h
  rcases h2 : buildNeurons nc r1 with ⟨ns, r2⟩
  rw [h2] at h
  dsimp only at h
  by_cases hemp : ((ns.enum.filterMap fun p => if p.2.has_output = true then some p.1 else none).isEmpty ||
      (ns.enum.filterMap fun p => if p.2.has_input = true then some p.1 else none).isEmpty) = true
  · rw [if_pos hemp] at h
    exact absurd (congrArg Prod.fst h) (by simp)
  · rw [if_neg hemp] at h
    rcases h3 : randRangeIncl
        (ns.enum.filterMap fun p => if p.2.has_output = true then some p.1 else none).length
        (min CONNECTION_COUNT ((ns.enum.filterMap fun p => if p.2.has_output = true then some p.1 else none).length * 2)) r2
      with ⟨tries, r3⟩
    rw [h3] at h
    rcases h4 : genConnections
        (ns.enum.filterMap fun p => if p.2.has_input = true then some p.1 else none)
        (ns.enum.filterMap fun p => if p.2.has_output = true then some p.1 else none)
        tries [] r3 with ⟨conns, r4⟩
    rw [h4] at h
    dsimp only at h
    have hnet : net = ⟨ns, conns⟩ := by
      have := congrArg Prod.fst h
      simpa using this.symm
    subst hnet
    have hlen : ns.length = nc := buildNeurons_length nc r1 ▸ by rw [h2]
    have hb := randRangeIncl_bounds MIN_GENERATED_NEURONS NEURON_COUNT r (by decide)
    rw [h1] at hb
    have houtlen : (ns.enum.filterMap fun p => if p.2.has_output = true then some p.1 else none).length ≤ ns.length := by
      calc (ns.enum.filterMap fun p => if p.2.has_output = true then some p.1 else none).length
          ≤ ns.enum.length := List.length_filterMap_le _ _
        _ = ns.length := List.enum_length
    have hor : ((ns.enum.filterMap fun p => if p.2.has_output = true then some p.1 else none).isEmpty ||
        (ns.enum.filterMap fun p => if p.2.has_input = true then some p.1 else none).isEmpty) = false := by
      simpa using hemp
    rcases Bool.or_eq_false_iff.mp hor with ⟨ho, hi⟩
    have hout_ne : (ns.enum.filterMap fun p => if p.2.has_output = true then some p.1 else none) ≠ [] := by
      intro hnil; rw [hnil] at ho; simp [List.isEmpty] at ho
    have hin_ne : (ns.enum.filterMap fun p => if p.2.has_input = true then some p.1 else none) ≠ [] := by
      intro hnil; rw [hnil] at hi; simp [List.isEmpty] at hi
    refine ⟨?_, ?_, ?_, ?_, ?_, ?_⟩
    · rw [hlen]; exact hb.1
    · rw [hlen]; exact hb.2
    · obtain ⟨idx, hidx⟩ : ∃ idx, idx ∈ (ns.enum.filterMap fun p => if p.2.has_output = true then some p.1 else none) := by
        cases hcase : (ns.enum.filterMap fun p => if p.2.has_output = true then some p.1 else none) with
        | nil => exact absurd hcase hout_ne
        | cons a t => exact ⟨a, hcase ▸ List.mem_cons_self a t⟩
      rcases List.mem_filterMap.mp hidx with ⟨p, hp, hcond⟩
      have hho : p.2.has_output = true := by
        by_contra hcontra
        simp [hcontra] at hcond
      have hmem : p.2 ∈ ns := by
        have hsnd := List.enum_map_snd ns
        exact hsnd ▸ List.mem_map_of_mem Prod.snd hp
      cases hp2 : p.2 with
      | Input i => exact ⟨p.2, hmem, i, hp2⟩
      | Output a => rw [hp2] at hho; exact absurd hho (by simp [Neuron.has_output])
    · obtain ⟨idx, hidx⟩ : ∃ idx, idx ∈ (ns.enum.filterMap fun p => if p.2.has_input = true then some p.1 else none) := by
        cases hcase : (ns.enum.filterMap fun p => if p.2.has_input = true then some p.1 else none) with
        | nil => exact absurd hcase hin_ne
        | cons a t => exact ⟨a, hcase ▸ List.mem_cons_self a t⟩
      rcases List.mem_filterMap.mp hidx with ⟨p, hp, hcond⟩
      have hhi : p.2.has_input = true := by
        by_contra hcontra
        simp [hcontra] at hcond
      have hmem : p.2 ∈ ns := by
        have hsnd := List.enum_map_snd ns
        exact hsnd ▸ List.mem_map_of_mem Prod.snd hp
      cases hp2 : p.2 with
      | Output a => exact ⟨p.2, hmem, a, hp2⟩
      | Input i => rw [hp2] at hhi; exact absurd hhi (by simp [Neuron.has_input])
    · have htries := randRangeIncl_bounds
        (ns.enum.filterMap fun p => if p.2.has_output = true then some p.1 else none).length
        (min CONNECTION_COUNT ((ns.enum.filterMap fun p => if p.2.has_output = true then some p.1 else none).length * 2)) r2 ?_
      · rw [h3] at htries
        have hconns := genConnections_length
          (ns.enum.filterMap fun p => if p.2.has_input = true then some p.1 else none)
          (ns.enum.filterMap fun p => if p.2.has_output = true then some p.1 else none)
          tries [] r3
        rw [h4] at hconns
        have : tries ≤ CONNECTION_COUNT := le_trans htries.2 (min_le_left _ _)
        simpa using le_trans hconns (by simpa using this)
      · have h16 : (ns.enum.filterMap fun p => if p.2.has_output = true then some p.1 else none).length ≤ CONNECTION_COUNT := by
          have : ns.length ≤ NEURON_COUNT := hlen ▸ hb.2
          exact le_trans houtlen this
        exact le_min h16 (by omega)
    · have hnodup := genConnections_nodup
        (ns.enum.filterMap fun p => if p.2.has_input = true then some p.1 else none)
        (ns.enum.filterMap fun p => if p.2.has_output = true then some p.1 else none)
        tries [] r3 List.nodup_nil
      rw [h4] at hnodup
      exact hnodup

/-- A draw sequence whose attempt succeeds: six neurons (one sensing, five
acting) and one candidate connection drawn as (0, 0). -/
def rC6 : List Nat := [0, 0, 4, 4, 4, 4, 4, 0, 0, 0]

/-- The brain the generator produces from `rC6`. -/
def netC6 : NeuralNetwork :=
  ⟨[.Input .AlwaysActive, .Output .Idle, .Output .Idle, .Output .Idle, .Output .Idle, .Output .Idle],
   [⟨0, 0⟩]⟩

/-- Witness for C6 at a concrete draw sequence. -/
theorem randomizeAttempt_valid_witness :
    MIN_GENERATED_NEURONS ≤ netC6.neurons.length ∧
    netC6.neurons.length ≤ NEURON_COUNT ∧
    (∃ n ∈ netC6.neurons, ∃ i, n = Neuron.Input i) ∧
    (∃ n ∈ netC6.neurons, ∃ a, n = Neuron.Output a) ∧
    netC6.connections.length ≤ CONNECTION_COUNT ∧
    netC6.connections.Nodup :=
  randomizeAttempt_valid rC6 [] netC6 (by decide)

theorem runMax_cons (n : Neuron) (s : NeuronValue)
    (t : List (Neuron × NeuronValue)) (v : ℚ) :
    runMax ((n, s) :: t) v =
      match n with
      | .Input _ => runMax t v
      | .Output _ => runMax t (max v s.input) := by
  cases n <;> rfl

theorem le_runMax_init (l : List (Neuron × NeuronValue)) (v : ℚ) :
    v ≤ runMax l v := by
  induction l generalizing v with
  | nil => exact le_refl v
  | cons pr t ih =>
    obtain ⟨n, s⟩ := pr
    cases n with
    | Input i => rw [runMax_cons]; exact ih v
    | Output a => rw [runMax_cons]; exact le_trans (le_max_left v s.input) (ih _)

theorem le_runMax_of_mem (l : List (Neuron × NeuronValue)) (v : ℚ)
    (pr : Neuron × NeuronValue) (hmem : pr ∈ l) (hout : pr.1.has_input = true) :
    pr.2.input ≤ runMax l v := by
  induction l generalizing v with
  | nil => exact absurd hmem (List.not_mem_nil pr)
  | cons pr0 t ih =>
    obtain ⟨n, s⟩ := pr0
    rcases List.mem_cons.mp hmem with h | h
    · subst h
      cases n with
      | Input i => exact absurd hout (by simp [Neuron.has_input])
      | Output a =>
        rw [runMax_cons]
        exact le_trans (le_max_right v s.input) (le_runMax_init t _)
    · cases n with
      | Input i => rw [runMax_cons]; exact ih v h
      | Output a => rw [runMax_cons]; exact ih (max v s.input) h

theorem runMax_of_bound (l : List (Neuron × NeuronValue)) (v : ℚ)
    (hb : ∀ pr ∈ l, pr.1.has_input = true → pr.2.input ≤ v) :
    runMax l v = v := by
  induction l generalizing v with
  | nil => rfl
  | cons pr0 t ih =>
    obtain ⟨n, s⟩ := pr0
    cases n with
    | Input i =>
      rw [runMax_cons]
      exact ih v fun pr hpr => hb pr (List.mem_cons_of_mem _ hpr)
    | Output a =>
      rw [runMax_cons]
      have hsv : s.input ≤ v :=
        hb (Neuron.Output a, s) (List.mem_cons_self _ _) (by simp [Neuron.has_input])
      rw [max_eq_left hsv]
      exact ih v fun pr hpr => hb pr (List.mem_cons_of_mem _ hpr)

theorem foldl_decideStep_of_bound (l : List (Neuron × NeuronValue)) (a : Action)
    (v : ℚ) (hb : ∀ pr ∈ l, pr.1.has_input = true → pr.2.input ≤ v) :
    l.foldl decideStep (a, v) = (a, v) := by
  induction l with
  | nil => rfl
  | cons pr0 t ih =>
    obtain ⟨n, s⟩ := pr0
    cases n with
    | Input i =>
      rw [List.foldl_cons]
      exact ih fun pr hpr => hb pr (List.mem_cons_of_mem _ hpr)
    | Output a0 =>
      rw [List.foldl_cons]
      have hsv : s.input ≤ v :=
        hb (Neuron.Output a0, s) (List.mem_cons_self _ _) (by simp [Neuron.has_input])
      have hstep : decideStep (a, v) (Neuron.Output a0, s) = (a, v) := by
        simp [decideStep, not_lt.mpr hsv]
      rw [hstep]
      exact ih fun pr hpr => hb pr (List.mem_cons_of_mem _ hpr)

theorem foldl_decideStep_find (l : List (Neuron × NeuronValue)) (M : ℚ) :
    ∀ (a : Action) (v : ℚ), runMax l v = M →
    (∃ pr ∈ l, pr.1.has_input = true ∧ v < pr.2.input) →
    ∃ pr, l.find? (fun q => q.1.has_input && decide (M ≤ q.2.input)) = some pr ∧
      pr.1.has_input = true ∧ pr.2.input = M ∧
      l.foldl decideStep (a, v) = (outputAction pr.1, M) := by
  induction l with
  | nil =>
    intro a v hM hex
    simp at hex
  | cons pr0 t ih =>
    intro a v hM hex
    obtain ⟨n0, s0⟩ := pr0
    cases n0 with
    | Input i0 =>
      have hM' : runMax t v = M := by rwa [runMax_cons] at hM
      have hex' : ∃ pr ∈ t, pr.1.has_input = true ∧ v < pr.2.input := by
        rcases hex with ⟨pr, hpr, hout, hlt⟩
        rcases List.mem_cons.mp hpr with h | h
        · rw [h] at hout; exact absurd hout (by simp [Neuron.has_input])
        · exact ⟨pr, h, hout, hlt⟩
      obtain ⟨pr, hfind, hout, hinp, hfold⟩ := ih a v hM' hex'
      refine ⟨pr, ?_, hout, hinp, ?_⟩
      · rw [List.find?_cons_of_neg _ (by simp [Neuron.has_input])]
        exact hfind
      · rw [List.foldl_cons]
        exact hfold
    | Output a0 =>
      by_cases hlt : v < s0.input
      · have hM1 : runMax t s0.input = M := by
          rw [runMax_cons] at hM
          rwa [max_eq_right (le_of_lt hlt)] at hM
        by_cases hex2 : ∃ pr ∈ t, pr.1.has_input = true ∧ s0.input < pr.2.input
        · obtain ⟨pr, hfind, hout, hinp, hfold⟩ := ih a0 s0.input hM1 hex2
          have hMgt : s0.input < M := by
            rcases hex2 with ⟨q, hq, hqo, hqlt⟩
            exact lt_of_lt_of_le hqlt (hM1 ▸ le_runMax_of_mem t s0.input q hq hqo)
          refine ⟨pr, ?_, hout, hinp, ?_⟩
          · rw [List.find?_cons_of_neg _ (by simp [Neuron.has_input, not_le.mpr hMgt])]
            exact hfind
          · rw [List.foldl_cons]
            have hstep : decideStep (a, v) (Neuron.Output a0, s0) = (a0, s0.input) := by
              simp [decideStep, hlt]
            rw [hstep]
            exact hfold
        · push_neg at hex2
          have hball : ∀ pr ∈ t, pr.1.has_input = true → pr.2.input ≤ s0.input := by
            intro pr hpr hout
            exact not_lt.mp (by simpa using hex2 pr hpr hout)
          have hMs : M = s0.input := by
            rw [← hM1, runMax_of_bound t s0.input hball]
          refine ⟨(Neuron.Output a0, s0), ?_, by simp [Neuron.has_input], hMs.symm, ?_⟩
          · exact List.find?_cons_of_pos _ (by simp [Neuron.has_input, hMs])
          · rw [List.foldl_cons]
            have hstep : decideStep (a, v) (Neuron.Output a0, s0) = (a0, s0.input) := by
              simp [decideStep, hlt]
            rw [hstep, foldl_decideStep_of_bound t a0 s0.input hball]
            simp [outputAction, hMs]
      · have hM' : runMax t v = M := by
          rw [runMax_cons] at hM
          rwa [max_eq_left (not_lt.mp hlt)] at hM
        have hex' : ∃ pr ∈ t, pr.1.has_input = true ∧ v < pr.2.input := by
          rcases hex with ⟨pr, hpr, hout, hplt⟩
          rcases List.mem_cons.mp hpr with h | h
          · rw [h] at hplt
            exact absurd hplt hlt
          · exact ⟨pr, h, hout, hplt⟩
        obtain ⟨pr, hfind, hout, hinp, hfold⟩ := ih a v hM' hex'
        have hvM : v < M := by
          rcases hex' with ⟨q, hq, hqo, hqlt⟩
          exact lt_of_lt_of_le hqlt (hM' ▸ le_runMax_of_mem t v q hq hqo)
        have hsM : s0.input < M := lt_of_le_of_lt (not_lt.mp hlt) hvM
        refine ⟨pr, ?_, hout, hinp, ?_⟩
        · rw [List.find?_cons_of_neg _ (by simp [Neuron.has_input, not_le.mpr hsM])]
          exact hfind
        · rw [List.foldl_cons]
          have hstep : decideStep (a, v) (Neuron.Output a0, s0) = (a, v) := by
            simp [decideStep, hlt]
          rw [hstep]
          exact hfold

/-- C7: given the seeded neuron states, after the single propagation pass the
returned action is described exactly by the accumulated inputs of the acting
neurons (those with `has_input`, that is the `Output` variants, matching the
source predicate): every acting neuron's accumulated input is at most the
running maximum; when no acting neuron has a strictly positive accumulated
input the result is `Idle`; and when some acting neuron has a strictly
positive accumulated input, the result is the wrapped action of the first (in
declaration order) acting neuron whose accumulated input attains the maximum,
so a strict maximum wins and ties go to the earliest neuron. -/
theorem calculate_action_spec (net : NeuralNetwork) (states : List NeuronValue) :
    (∀ pr ∈ net.neurons.zip (propagate states net.connections),
      pr.1.has_input = true →
      pr.2.input ≤ runMax (net.neurons.zip (propagate states net.connections)) 0) ∧
    ((∀ pr ∈ net.neurons.zip (propagate states net.connections),
        pr.1.has_input = true → pr.2.input ≤ 0) →
      NeuralTick.calculate_action net states = Action.Idle) ∧
    ((∃ pr ∈ net.neurons.zip (propagate states net.connections),
        pr.1.has_input = true ∧ 0 < pr.2.input) →
      ((net.neurons.zip (propagate states net.connections)).find?
          (fun q => q.1.has_input &&
            decide (runMax (net.neurons.zip (propagate states net.connections)) 0 ≤ q.2.input))).map
          (fun pr => outputAction pr.1) =
        some (NeuralTick.calculate_action net states)) := by
  refine ⟨?_, ?_, ?_⟩
  · intro pr hpr hout
    exact le_runMax_of_mem _ 0 pr hpr hout
  · intro hb
    rw [show NeuralTick.calculate_action net states =
      ((net.neurons.zip (propagate states net.connections)).foldl decideStep (Action.Idle, 0)).1 from rfl]
    rw [foldl_decideStep_of_bound _ Action.Idle 0 hb]
  · intro hex
    obtain ⟨pr, hfind, hout, hinp, hfold⟩ :=
      foldl_decideStep_find (net.neurons.zip (propagate states net.connections))
        (runMax (net.neurons.zip (propagate states net.connections)) 0)
        Action.Idle 0 rfl hex
    rw [hfind]
    rw [show NeuralTick.calculate_action net states =
      ((net.neurons.zip (propagate states net.connections)).foldl decideStep (Action.Idle, 0)).1 from rfl]
    rw [hfold]
    rfl

/-- A two-neuron brain used as the C7 witness: one always-active sensing
neuron wired to one Eat acting neuron. -/
def netC7 : NeuralNetwork := ⟨[.Input .AlwaysActive, .Output .Eat], [⟨0, 1⟩]⟩

/-- Seeded states for the C7 witness: the sensing neuron's output is 1. -/
def statesC7 : List NeuronValue := [⟨0, 1⟩, ⟨0, 0⟩]

/-- Witness for C7 at a concrete brain: the Eat neuron accumulates input 1,
wins the selection, and the find-based description agrees. -/
theorem calculate_action_spec_witness :
    ((netC7.neurons.zip (propagate statesC7 netC7.connections)).find?
        (fun q => q.1.has_input &&
          decide (runMax (netC7.neurons.zip (propagate statesC7 netC7.connections)) 0 ≤ q.2.input))).map
        (fun pr => outputAction pr.1) =
      some (NeuralTick.calculate_action netC7 statesC7) ∧
    NeuralTick.calculate_action netC7 statesC7 = Action.Eat :=
  ⟨(calculate_action_spec netC7 statesC7).2.2
      ⟨(Neuron.Output .Eat, ⟨1, 0⟩),
        by
          rw [show netC7.neurons.zip (propagate statesC7 netC7.connections) =
            [(Neuron.Input .AlwaysActive, ⟨0, 1⟩), (Neuron.Output .Eat, ⟨1, 0⟩)] from by norm_num [netC7, statesC7, propagate, propagateStep]]
          exact List.mem_cons_of_mem _ (List.mem_cons_self _ _),
        rfl, by norm_num⟩,
    by norm_num [NeuralTick.calculate_action, propagate, propagateStep, decideStep, netC7, statesC7]⟩

/-- The occupancy invariant of the world: the occupancy keys are distinct,
every key sits on a tile that can contain a creature (which also forces it in
bounds), and the tile array has exactly width times height entries. -/
def WorldInv (w : World) : Prop :=
  (keysOf w.creatures).Nodup ∧
  (∀ p ∈ keysOf w.creatures, ∃ t, w.get_tile p = some t ∧ t.can_contain_creature = true) ∧
  w.tiles.length = w.width * w.height

/-- What every mutation step of the world preserves: the dimensions, the tile
count, every lava tile (no operation ever writes over lava), and the
occupancy invariant. -/
def StepOk (w w' : World) : Prop :=
  w'.width = w.width ∧ w'.height = w.height ∧ w'.tiles.length = w.tiles.length ∧
  (∀ i, w.tiles.get? i = some Tile.Lava → w'.tiles.get? i = some Tile.Lava) ∧
  (WorldInv w → WorldInv w')

theorem stepOk_refl (w : World) : StepOk w w :=
  ⟨rfl, rfl, rfl, fun _ h => h, fun h => h⟩

theorem StepOk.trans {w1 w2 w3 : World} (h12 : StepOk w1 w2) (h23 : StepOk w2 w3) :
    StepOk w1 w3 :=
  ⟨h23.1.trans h12.1, h23.2.1.trans h12.2.1, h23.2.2.1.trans h12.2.2.1,
    fun i hi => h23.2.2.2.1 i (h12.2.2.2.1 i hi),
    fun h => h23.2.2.2.2 (h12.2.2.2.2 h)⟩

theorem get_tile_some_bounds (w : World) (p : Position) (t : Tile)
    (h : w.get_tile p = some t) : w.check_bounds p = true := by
  unfold World.get_tile at h
  by_cases hb : w.check_bounds p = true
  · exact hb
  · rw [if_neg hb] at h
    exact absurd h (by simp)

theorem keysOf_updateKey_eq {α : Type} (l : List (Position × α)) (p : Position)
    (v : α) : keysOf (updateKey l p v) = keysOf l := by
  induction l with
  | nil => rfl
  | cons kv rest ih =>
    obtain ⟨k, w⟩ := kv
    by_cases hk : k = p
    · subst hk
      simpa [updateKey] using ih
    · simpa [updateKey, hk] using ih

theorem keysOf_eraseKey_sublist {α : Type} (l : List (Position × α)) (p : Position) :
    (keysOf (eraseKey l p)).Sublist (keysOf l) := by
  induction l with
  | nil => exact List.Sublist.refl _
  | cons kv rest ih =>
    obtain ⟨k, v⟩ := kv
    by_cases hk : k = p
    · simpa [eraseKey, hk] using ih.cons k
    · simpa [eraseKey, hk] using ih.cons₂ k

theorem notMem_keysOf_eraseKey_self {α : Type} (l : List (Position × α))
    (p : Position) : p ∉ keysOf (eraseKey l p) := by
  intro hmem
  have := (containsKey_iff_mem (eraseKey l p) p).mpr hmem
  unfold containsKey at this
  rw [lookupKey_eraseKey_self] at this
  simp at this

theorem notMem_keysOf_of_contains_false {α : Type} (l : List (Position × α))
    (p : Position) (h : containsKey l p = false) : p ∉ keysOf l := by
  intro hmem
  rw [(containsKey_iff_mem l p).mpr hmem] at h
  exact absurd h (by simp)

/-- Tile lookup in a world whose tile array was replaced, in terms of the
original dimensions. -/
theorem get_tile_set_tiles (w : World) (ts : List Tile) (p : Position) :
    ({ w with tiles := ts } : World).get_tile p =
      if w.check_bounds p then ts.get? (p.y * w.width + p.x) else none := rfl

/-- All the tile writes of the engine replace a ground tile by a ground
tile: such a write preserves every tile's passability and every lava tile. -/
theorem set_ground_tile_preserved (tiles : List Tile) (idx : Nat)
    (d : AccessableTileData) (j : Nat) (t : Tile) (hj : tiles.get? j = some t) :
    ∃ t' : Tile, (tiles.set idx (Tile.Ground d)).get? j = some t' ∧
      (t.can_contain_creature = true → t'.can_contain_creature = true) ∧
      (t = Tile.Lava → t' = Tile.Lava ∨ j = idx) := by
  by_cases hij : idx = j
  · subst hij
    have hlt : idx < tiles.length := by
      by_contra hge
      rw [List.get?_eq_none.mpr (Nat.le_of_not_lt hge)] at hj
      exact absurd hj (by simp)
    refine ⟨Tile.Ground d, ?_, ?_, ?_⟩
    · exact List.get?_set_eq_of_lt _ hlt
    · intro _; rfl
    · intro _; right; rfl
  · refine ⟨t, ?_, fun h => h, fun hl => Or.inl hl⟩
    rw [List.get?_set_ne _ _ hij]
    exact hj

theorem stepOk_kill (w : World) (p : Position) :
    StepOk w (w.kill_creature p) := by
  refine ⟨rfl, rfl, rfl, fun _ h => h, ?_⟩
  rintro ⟨hnd, hkeys, hlen⟩
  refine ⟨?_, ?_, hlen⟩
  · exact (keysOf_eraseKey_sublist w.creatures p).nodup hnd
  · intro q hq
    exact hkeys q ((keysOf_eraseKey_sublist w.creatures p).mem hq)

theorem stepOk_update_creature (w : World) (p : Position) (c : Creature) :
    StepOk w { w with creatures := updateKey w.creatures p c } := by
  refine ⟨rfl, rfl, rfl, fun _ h => h, ?_⟩
  rintro ⟨hnd, hkeys, hlen⟩
  refine ⟨?_, ?_, hlen⟩
  · rw [show keysOf (updateKey w.creatures p c) = keysOf w.creatures from keysOf_updateKey_eq _ _ _]
    exact hnd
  · intro q hq
    rw [keysOf_updateKey_eq] at hq
    exact hkeys q hq

theorem stepOk_spawn (w : World) (p : Position) (c : Creature) (w' : World)
    (h : w.spawn_creature p c = some w') : StepOk w w' := by
  unfold World.spawn_creature at h
  cases hg : w.get_tile p with
  | none => rw [hg] at h; exact absurd h (by simp)
  | some t =>
    rw [hg] at h
    dsimp only at h
    by_cases hcan : t.can_contain_creature = true
    · rw [if_pos hcan] at h
      injection h with h
      subst h
      refine ⟨rfl, rfl, rfl, fun _ hl => hl, ?_⟩
      rintro ⟨hnd, hkeys, hlen⟩
      unfold orInsertKey
      by_cases hct : containsKey w.creatures p = true
      · rw [if_pos hct]
        exact ⟨hnd, hkeys, hlen⟩
      · rw [if_neg hct]
        refine ⟨?_, ?_, hlen⟩
        · exact List.Nodup.cons
            (notMem_keysOf_of_contains_false _ _ (by simpa using hct)) hnd
        · intro q hq
          rcases List.mem_cons.mp hq with hq | hq
          · subst hq
            exact ⟨t, hg, hcan⟩
          · exact hkeys q hq
    · rw [if_neg hcan] at h
      injection h with h
      subst h
      exact stepOk_refl w

theorem stepOk_move (w : World) (old_position new_position : Position) (w' : World)
    (h : w.move_creature old_position new_position = some w') : StepOk w w' := by
  unfold World.move_creature at h
  by_cases hct : containsKey w.creatures new_position = true
  · rw [if_pos hct] at h
    injection h with h
    subst h
    exact stepOk_refl w
  · rw [if_neg hct] at h
    cases hlk : lookupKey w.creatures old_position with
    | none => rw [hlk] at h; injection h with h; subst h; exact stepOk_refl w
    | some creature =>
      rw [hlk] at h
      dsimp only at h
      cases hg : ({ w with creatures := eraseKey w.creatures old_position } : World).get_tile new_position with
      | none => rw [hg] at h; exact absurd h (by simp)
      | some tile =>
        rw [hg] at h
        dsimp only at h
        have hgw : w.get_tile new_position = some tile := hg
        by_cases hcan : tile.can_contain_creature = true
        · rw [if_pos hcan] at h
          injection h with h
          subst h
          refine ⟨rfl, rfl, rfl, fun _ hl => hl, ?_⟩
          rintro ⟨hnd, hkeys, hlen⟩
          refine ⟨?_, ?_, hlen⟩
          · unfold insertKey
            exact List.Nodup.cons (notMem_keysOf_eraseKey_self _ _)
              (((keysOf_eraseKey_sublist _ _).trans (keysOf_eraseKey_sublist _ _)).nodup hnd)
          · intro q hq
            unfold insertKey at hq
            rcases List.mem_cons.mp hq with hq | hq
            · subst hq
              exact ⟨tile, hgw, hcan⟩
            · exact hkeys q
                (((keysOf_eraseKey_sublist _ _).trans (keysOf_eraseKey_sublist _ _)).mem hq)
        · rw [if_neg hcan] at h
          injection h with h
          subst h
          refine ⟨rfl, rfl, rfl, fun _ hl => hl, ?_⟩
          rintro ⟨hnd, hkeys, hlen⟩
          refine ⟨(keysOf_eraseKey_sublist _ _).nodup hnd, ?_, hlen⟩
          intro q hq
          exact hkeys q ((keysOf_eraseKey_sublist _ _).mem hq)

theorem stepOk_copy_dna (w : World) (old_position new_position : Position)
    (w' : World) (h : w.copy_dna old_position new_position = some w') :
    StepOk w w' := by
  unfold World.copy_dna at h
  by_cases heq : old_position = new_position
  · rw [if_pos heq] at h
    exact absurd h (by simp)
  · rw [if_neg heq] at h
    cases h1 : lookupKey w.creatures old_position with
    | none => rw [h1] at h; dsimp only at h; injection h with h; subst h; exact stepOk_refl w
    | some src =>
      rw [h1] at h
      cases h2 : lookupKey w.creatures new_position with
      | none => rw [h2] at h; dsimp only at h; injection h with h; subst h; exact stepOk_refl w
      | some dst =>
        rw [h2] at h
        dsimp only at h
        injection h with h
        subst h
        exact stepOk_update_creature w new_position { dst with brain := src.brain }

theorem stepOk_regen (w : World) (p : Position) (w' : World)
    (h : w.regenerate_food p = some w') : StepOk w w' := by
  unfold World.regenerate_food at h
  cases hg : w.tiles.get? (p.x + p.y * w.width) with
  | none => rw [hg] at h; exact absurd h (by simp)
  | some t =>
    rw [hg] at h
    cases t with
    | Lava =>
      dsimp only at h
      injection h with h
      subst h
      exact stepOk_refl w
    | Ground data =>
      dsimp only at h
      injection h with h
      subst h
      refine ⟨rfl, rfl, by simp, ?_, ?_⟩
      · intro i hi
        rcases set_ground_tile_preserved w.tiles (p.x + p.y * w.width) { data with food_1 := true } i Tile.Lava hi with ⟨t', hget, _, hlava⟩
        rcases hlava rfl with hl | hl
        · rw [hget, hl]
        · subst hl
          rw [hi] at hg
          exact absurd hg (by simp)
      · rintro ⟨hnd, hkeys, hlen⟩
        refine ⟨hnd, ?_, by simpa using hlen⟩
        intro q hq
        rcases hkeys q hq with ⟨t, hqt, hcan⟩
        have hb : w.check_bounds q = true := get_tile_some_bounds w q t hqt
        rw [get_tile_set_tiles, if_pos hb]
        unfold World.get_tile at hqt
        rw [if_pos hb] at hqt
        rcases set_ground_tile_preserved w.tiles (p.x + p.y * w.width) { data with food_1 := true } (q.y * w.width + q.x) t hqt with ⟨t', hget, hcanp, _⟩
        exact ⟨t', hget, hcanp hcan⟩

/-- Tile lookup on an explicit world record. -/
theorem get_tile_mk (width height : Nat) (tiles : List Tile)
    (creatures : List (Position × Creature)) (current_tick : Nat)
    (settings : WorldSettings) (p : Position) :
    (⟨width, height, tiles, creatures, current_tick, settings⟩ : World).get_tile p =
      if decide (p.x < width ∧ p.y < height) = true then
        tiles.get? (p.y * width + p.x)
      else none := rfl

theorem stepOk_apply_action (w : World) (p : Position) (a : Action) (w' : World)
    (h : w.apply_action p a = some w') : StepOk w w' := by
  unfold World.apply_action at h
  cases hc : lookupKey w.creatures p with
  | none => rw [hc] at h; exact absurd h (by simp)
  | some creature =>
    rw [hc] at h
    dsimp only at h
    by_cases hcost : a.energy_cost ≤ creature.energy
    · rw [if_pos hcost] at h
      cases a with
      | Idle =>
        dsimp only at h
        injection h with h
        subst h
        exact stepOk_update_creature w p _
      | Eat =>
        dsimp only at h
        cases hg : w.tiles.get? (p.x + p.y * w.width) with
        | none => rw [hg] at h; exact absurd h (by simp)
        | some t =>
          rw [hg] at h
          cases t with
          | Lava =>
            dsimp only at h
            injection h with h
            subst h
            exact stepOk_update_creature w p _
          | Ground data =>
            dsimp only at h
            by_cases hfood : data.food_1 = true
            · rw [if_pos hfood] at h
              injection h with h
              subst h
              refine ⟨rfl, rfl, by simp, ?_, ?_⟩
              · intro i hi
                rcases set_ground_tile_preserved w.tiles (p.x + p.y * w.width) { data with food_1 := false } i Tile.Lava hi with ⟨t', hget, _, hlava⟩
                rcases hlava rfl with hl | hl
                · rw [hget, hl]
                · subst hl
                  rw [hi] at hg
                  exact absurd hg (by simp)
              · rintro ⟨hnd, hkeys, hlen⟩
                refine ⟨?_, ?_, by simpa using hlen⟩
                · rw [keysOf_updateKey_eq]
                  exact hnd
                · intro q hq
                  rw [keysOf_updateKey_eq] at hq
                  rcases hkeys q hq with ⟨t, hqt, hcan⟩
                  have hb : w.check_bounds q = true := get_tile_some_bounds w q t hqt
                  unfold World.check_bounds at hb
                  rw [get_tile_mk, if_pos hb]
                  unfold World.get_tile at hqt
                  unfold World.check_bounds at hqt
                  rw [if_pos hb] at hqt
                  rcases set_ground_tile_preserved w.tiles (p.x + p.y * w.width) { data with food_1 := false } (q.y * w.width + q.x) t hqt with ⟨t', hget, hcanp, _⟩
                  exact ⟨t', hget, hcanp hcan⟩
            · rw [if_neg hfood] at h
              injection h with h
              subst h
              exact stepOk_update_creature w p _
      | Move location =>
        dsimp only at h
        split at h
        · exact (stepOk_update_creature w p _).trans (stepOk_move _ p _ w' h)
        · injection h with h
          subst h
          exact stepOk_update_creature w p _
      | Rotate r =>
        dsimp only at h
        injection h with h
        subst h
        exact stepOk_update_creature w p _
      | CreateMembrane location =>
        dsimp only at h
        exact (stepOk_update_creature w p _).trans (stepOk_spawn _ _ _ w' h)
      | CopyDna location =>
        dsimp only at h
        exact (stepOk_update_creature w p _).trans (stepOk_copy_dna _ _ _ w' h)
    · rw [if_neg hcost] at h
      injection h with h
      subst h
      exact stepOk_kill w p

theorem stepOk_applyAll (l : List (Position × Action)) :
    ∀ (w w' : World), w.applyAll l = some w' → StepOk w w' := by
  induction l with
  | nil =>
    intro w w' h
    unfold World.applyAll at h
    injection h with h
    subst h
    exact stepOk_refl w
  | cons pa rest ih =>
    intro w w' h
    obtain ⟨p, a⟩ := pa
    unfold World.applyAll at h
    cases ha : w.apply_action p a with
    | none => rw [ha] at h; exact absurd h (by simp)
    | some w1 =>
      rw [ha] at h
      dsimp only at h
      exact (stepOk_apply_action w p a w1 ha).trans (ih w1 w' h)

theorem stepOk_spawnAll (l : List (Position × CardinalDirection × NeuralNetwork)) :
    ∀ (w w' : World), w.spawnAll l = some w' → StepOk w w' := by
  induction l with
  | nil =>
    intro w w' h
    unfold World.spawnAll at h
    injection h with h
    subst h
    exact stepOk_refl w
  | cons triple rest ih =>
    intro w w' h
    obtain ⟨p, rot, brain⟩ := triple
    unfold World.spawnAll at h
    cases ha : w.spawn_creature p (Creature.new w.current_tick rot (some brain)) with
    | none => rw [ha] at h; exact absurd h (by simp)
    | some w1 =>
      rw [ha] at h
      dsimp only at h
      exact (stepOk_spawn w p _ w1 ha).trans (ih w1 w' h)

theorem stepOk_regenAll (l : List Position) :
    ∀ (w w' : World), w.regenAll l = some w' → StepOk w w' := by
  induction l with
  | nil =>
    intro w w' h
    unfold World.regenAll at h
    injection h with h
    subst h
    exact stepOk_refl w
  | cons p rest ih =>
    intro w w' h
    unfold World.regenAll at h
    cases ha : w.regenerate_food p with
    | none => rw [ha] at h; exact absurd h (by simp)
    | some w1 =>
      rw [ha] at h
      dsimp only at h
      exact (stepOk_regen w p w1 ha).trans (ih w1 w' h)

theorem stepOk_tick (w : World) (decided : List (Position × Action))
    (spawns : List (Position × CardinalDirection × NeuralNetwork))
    (foods : List Position) (w' : World)
    (h : w.tick decided spawns foods = some w') : StepOk w w' := by
  unfold World.tick at h
  dsimp only at h
  cases h1 : ({ w with current_tick := w.current_tick + 1 } : World).applyAll decided with
  | none => rw [h1] at h; exact absurd h (by simp)
  | some w2 =>
    rw [h1] at h
    dsimp only at h
    cases h2 : w2.spawnAll spawns with
    | none => rw [h2] at h; exact absurd h (by simp)
    | some w3 =>
      rw [h2] at h
      dsimp only at h
      have s0 : StepOk w { w with current_tick := w.current_tick + 1 } :=
        ⟨rfl, rfl, rfl, fun _ x => x, fun hi => hi⟩
      exact s0.trans ((stepOk_applyAll decided _ w2 h1).trans
        ((stepOk_spawnAll spawns w2 w3 h2).trans (stepOk_regenAll foods w3 w' h)))

theorem stepOk_reachable (init w : World) (h : World.Reachable init w) :
    StepOk init w := by
  induction h with
  | base => exact stepOk_refl init
  | step hr htick ih => exact ih.trans (stepOk_tick _ _ _ _ _ htick)

theorem stampAll_cons (ts : List Tile) (i : Nat) (rest : List Nat) (b : Tile) :
    stampAll ts (i :: rest) b = stampAll (ts.set i b) rest b := rfl

theorem stampAll_length (idxs : List Nat) :
    ∀ (ts : List Tile) (b : Tile), (stampAll ts idxs b).length = ts.length := by
  induction idxs with
  | nil => intro ts b; rfl
  | cons i rest ih =>
    intro ts b
    rw [stampAll_cons, ih (ts.set i b) b, List.length_set]

theorem stampAll_get? (idxs : List Nat) :
    ∀ (ts : List Tile) (b : Tile) (j : Nat),
    (stampAll ts idxs b).get? j =
      if j ∈ idxs ∧ j < ts.length then some b else ts.get? j := by
  induction idxs with
  | nil =>
    intro ts b j
    simp [stampAll]
  | cons i rest ih =>
    intro ts b j
    rw [stampAll_cons, ih (ts.set i b) b j, List.length_set]
    by_cases hlt : j < ts.length
    · by_cases hmem : j ∈ rest
      · rw [if_pos ⟨hmem, hlt⟩, if_pos ⟨List.mem_cons_of_mem i hmem, hlt⟩]
      · rw [if_neg (fun hand => hmem hand.1)]
        by_cases hij : i = j
        · subst hij
          rw [List.get?_set_eq_of_lt b hlt, if_pos ⟨List.mem_cons_self i rest, hlt⟩]
        · rw [List.get?_set_ne b ts hij]
          have hno : ¬ (j ∈ i :: rest ∧ j < ts.length) := by
            rintro ⟨hjc, _⟩
            rcases List.mem_cons.mp hjc with hji | hjr
            · exact hij hji.symm
            · exact hmem hjr
          rw [if_neg hno]
    · have hnone : ts.get? j = none := List.get?_eq_none.mpr (Nat.le_of_not_lt hlt)
      have hnone2 : (ts.set i b).get? j = none := by
        rw [List.get?_set]
        by_cases hij : i = j
        · rw [if_pos hij, hnone]; rfl
        · rw [if_neg hij, hnone]
      rw [if_neg (fun hand => hlt hand.2), if_neg (fun hand => hlt hand.2), hnone2, hnone]

theorem idx_lt (width height : Nat) (p : Position) (hx : p.x < width)
    (hy : p.y < height) : p.y * width + p.x < width * height := by
  calc p.y * width + p.x < p.y * width + width := by omega
    _ = (p.y + 1) * width := by ring
    _ ≤ height * width := Nat.mul_le_mul_right _ (by omega)
    _ = width * height := Nat.mul_comm _ _

theorem mem_borderIndices (width height : Nat) (p : Position)
    (hx : p.x < width) (hy : p.y < height)
    (hring : p.x = 0 ∨ p.x = width - 1 ∨ p.y = 0 ∨ p.y = height - 1) :
    p.y * width + p.x ∈ borderIndices width height := by
  unfold borderIndices
  rw [List.mem_append]
  by_cases hy0 : p.y = 0
  · left
    rw [List.mem_flatMap]
    refine ⟨p.x, List.mem_range.mpr hx, ?_⟩
    have : p.y * width + p.x = p.x := by rw [hy0]; ring
    rw [this]
    exact List.mem_cons_self _ _
  · by_cases hyh : p.y = height - 1
    · left
      rw [List.mem_flatMap]
      refine ⟨p.x, List.mem_range.mpr hx, ?_⟩
      have : p.y * width + p.x = width * (height - 1) + p.x := by
        rw [hyh, Nat.mul_comm]
      rw [this]
      exact List.mem_cons_of_mem _ (List.mem_cons_self _ _)
    · right
      rw [List.mem_flatMap]
      have hy1 : 1 ≤ p.y := Nat.one_le_iff_ne_zero.mpr hy0
      refine ⟨p.y, ?_, ?_⟩
      · rw [List.mem_range'_1]
        constructor
        · exact hy1
        · omega
      · rcases hring with hx0 | hxw | h0 | hh
        · rw [hx0]
          exact List.mem_cons_self _ _
        · have : p.y * width + p.x = p.y * width + width - 1 := by omega
          rw [this]
          exact List.mem_cons_of_mem _ (List.mem_cons_self _ _)
        · exact absurd h0 hy0
        · exact absurd hh hyh

/-- The border ring of a freshly built world carries the configured border
tile. -/
theorem new_ring (width height : Nat) (border : Tile) (s : WorldSettings)
    (p : Position) (hx : p.x < width) (hy : p.y < height)
    (hring : p.x = 0 ∨ p.x = width - 1 ∨ p.y = 0 ∨ p.y = height - 1) :
    (World.new width height border s).get_tile p = some border := by
  unfold World.new
  dsimp only
  rw [get_tile_mk]
  rw [if_pos (by simp [hx, hy])]
  rw [stampAll_get?]
  have hcond : p.y * width + p.x ∈ borderIndices width height ∧
      p.y * width + p.x < (List.replicate (width * height) Tile.default).length := by
    refine ⟨mem_borderIndices width height p hx hy hring, ?_⟩
    rw [List.length_replicate]
    exact idx_lt width height p hx hy
  rw [if_pos hcond]

theorem worldInv_new (width height : Nat) (border : Tile) (s : WorldSettings) :
    WorldInv (World.new width height border s) := by
  refine ⟨List.nodup_nil, ?_, ?_⟩
  · intro p hp
    exact absurd hp (List.not_mem_nil p)
  · show (stampAll (List.replicate (width * height) Tile.default) (borderIndices width height) border).length = width * height
    rw [stampAll_length, List.length_replicate]

theorem countP_eq_filter_range (l : List Tile) (pred : Tile → Bool) :
    ((List.range l.length).filter (fun i => (l.get? i).any pred)).length =
      l.countP pred := by
  induction l with
  | nil => rfl
  | cons t rest ih =>
    rw [List.length_cons, List.range_succ_eq_map, List.filter_cons]
    have hmap : ((List.range rest.length).map Nat.succ).filter
          (fun i => (((t :: rest).get? i).any pred)) =
        ((List.range rest.length).filter (fun i => ((rest.get? i).any pred))).map Nat.succ := by
      rw [List.filter_map]
      rfl
    by_cases hp : pred t = true
    · have hcond : (((t :: rest).get? 0).any pred) = true := hp
      rw [if_pos hcond, List.length_cons, hmap, List.length_map, ih, List.countP_cons, hp]
      simp
    · have hpf : pred t = false := by
        cases hcase : pred t
        · rfl
        · exact absurd hcase hp
      have hcond2 : (((t :: rest).get? 0).any pred) = false := hpf
      rw [if_neg (by simp [hpf]), hmap, List.length_map, ih, List.countP_cons]
      rw [hpf]
      simp

/-- Under the occupancy invariant, the occupancy map cannot hold more
creatures than there are passable tiles: distinct keys map injectively to
distinct passable tile indices. -/
theorem creatures_le_passable (w : World) (hinv : WorldInv w) :
    w.creatures.length ≤ w.tiles.countP Tile.can_contain_creature := by
  obtain ⟨hnd, hkeys, hlen⟩ := hinv
  have hx : ∀ p ∈ keysOf w.creatures, p.x < w.width ∧ p.y < w.height := by
    intro p hp
    rcases hkeys p hp with ⟨t, ht, _⟩
    have hb := get_tile_some_bounds w p t ht
    unfold World.check_bounds at hb
    exact of_decide_eq_true hb
  have hndidx : ((keysOf w.creatures).map (fun p => p.y * w.width + p.x)).Nodup := by
    refine List.Nodup.map_on ?_ hnd
    intro p hp q hq heq
    have hpx := (hx p hp).1
    have hqx := (hx q hq).1
    have hmod := congrArg (fun n => n % w.width) heq
    have hdiv := congrArg (fun n => n / w.width) heq
    have hwpos : 0 < w.width := Nat.lt_of_le_of_lt (Nat.zero_le _) hpx
    have hxeq : p.x = q.x := by
      have h1 : (p.y * w.width + p.x) % w.width = p.x := by
        rw [Nat.add_comm, Nat.add_mul_mod_self_right]
        exact Nat.mod_eq_of_lt hpx
      have h2 : (q.y * w.width + q.x) % w.width = q.x := by
        rw [Nat.add_comm, Nat.add_mul_mod_self_right]
        exact Nat.mod_eq_of_lt hqx
      simpa [h1, h2] using hmod
    have hyeq : p.y = q.y := by
      have h1 : (p.y * w.width + p.x) / w.width = p.y := by
        rw [Nat.add_comm, Nat.mul_comm, Nat.add_mul_div_left _ _ hwpos,
          Nat.div_eq_of_lt hpx]
        omega
      have h2 : (q.y * w.width + q.x) / w.width = q.y := by
        rw [Nat.add_comm, Nat.mul_comm, Nat.add_mul_div_left _ _ hwpos,
          Nat.div_eq_of_lt hqx]
        omega
      simpa [h1, h2] using hdiv
    cases p; cases q
    simp only at hxeq hyeq
    rw [hxeq, hyeq]
  have hsub : ∀ i ∈ (keysOf w.creatures).map (fun p => p.y * w.width + p.x),
      i ∈ (List.range w.tiles.length).filter
        (fun i => (w.tiles.get? i).any Tile.can_contain_creature) := by
    intro i hi
    rcases List.mem_map.mp hi with ⟨p, hp, hpi⟩
    rcases hkeys p hp with ⟨t, ht, hcan⟩
    have hb := get_tile_some_bounds w p t ht
    unfold World.get_tile at ht
    rw [if_pos hb] at ht
    have hbp := hx p hp
    have hilt : i < w.tiles.length := by
      rw [← hpi, hlen]
      exact idx_lt w.width w.height p hbp.1 hbp.2
    rw [List.mem_filter]
    refine ⟨List.mem_range.mpr hilt, ?_⟩
    rw [← hpi, ht]
    simpa using hcan
  have hlen1 : w.creatures.length =
      ((keysOf w.creatures).map (fun p => p.y * w.width + p.x)).length := by
    rw [List.length_map]
    unfold keysOf
    rw [List.length_map]
  rw [hlen1, ← countP_eq_filter_range w.tiles Tile.can_contain_creature]
  calc ((keysOf w.creatures).map (fun p => p.y * w.width + p.x)).length
      = ((keysOf w.creatures).map (fun p => p.y * w.width + p.x)).toFinset.card :=
        (List.toFinset_card_of_nodup hndidx).symm
    _ ≤ ((List.range w.tiles.length).filter
          (fun i => (w.tiles.get? i).any Tile.can_contain_creature)).toFinset.card := by
        refine Finset.card_le_card ?_
        intro i hi
        exact List.mem_toFinset.mpr (hsub i (List.mem_toFinset.mp hi))
    _ ≤ ((List.range w.tiles.length).filter
          (fun i => (w.tiles.get? i).any Tile.can_contain_creature)).length :=
        List.toFinset_card_le _

/-- C9: in every world reachable from `new` by completed ticks, every key of
the occupancy map passes the bounds check and lies on a passable ground
tile, and the occupancy map never holds more entries than there are passable
tiles. -/
theorem reachable_occupancy_invariant (width height : Nat) (border : Tile)
    (s : WorldSettings) (w : World)
    (h : World.Reachable (World.new width height border s) w) :
    (∀ p ∈ keysOf w.creatures, w.check_bounds p = true ∧
      ∃ t, w.get_tile p = some t ∧ t.can_contain_creature = true) ∧
    w.creatures.length ≤ w.tiles.countP Tile.can_contain_creature := by
  have hinv : WorldInv w :=
    (stepOk_reachable _ _ h).2.2.2.2 (worldInv_new width height border s)
  obtain ⟨hnd, hkeys, hlen⟩ := hinv
  refine ⟨?_, creatures_le_passable w ⟨hnd, hkeys, hlen⟩⟩
  intro p hp
  rcases hkeys p hp with ⟨t, ht, hcan⟩
  exact ⟨get_tile_some_bounds w p t ht, t, ht, hcan⟩

/-- Witness for C9 at the freshly built 3 by 3 lava box. -/
theorem reachable_occupancy_invariant_witness :
    (World.new 3 3 Tile.Lava ⟨1, 1⟩).creatures.length ≤
      (World.new 3 3 Tile.Lava ⟨1, 1⟩).tiles.countP Tile.can_contain_creature :=
  (reachable_occupancy_invariant 3 3 Tile.Lava ⟨1, 1⟩ _ World.Reachable.base).2

/-- C5 amended theorem: when the configured border tile is impassable
(lava), every reachable world keeps the whole border ring equal to that
tile — no operation of the engine ever writes over a lava tile. -/
theorem reachable_border_impassable (width height : Nat) (s : WorldSettings)
    (w : World) (h : World.Reachable (World.new width height Tile.Lava s) w)
    (p : Position) (hx : p.x < w.width) (hy : p.y < w.height)
    (hring : p.x = 0 ∨ p.x = w.width - 1 ∨ p.y = 0 ∨ p.y = w.height - 1) :
    w.get_tile p = some Tile.Lava := by
  obtain ⟨hw, hh, hlen, hlava, _⟩ := stepOk_reachable _ _ h
  have hw' : w.width = width := hw
  have hh' : w.height = height := hh
  have hx0 : p.x < width := hw' ▸ hx
  have hy0 : p.y < height := hh' ▸ hy
  have hringT : p.x = 0 ∨ p.x = width - 1 ∨ p.y = 0 ∨ p.y = height - 1 := by
    rw [hw', hh'] at hring
    exact hring
  have hstamp := new_ring width height Tile.Lava s p hx0 hy0 hringT
  have htile : (World.new width height Tile.Lava s).tiles.get? (p.y * width + p.x) =
      some Tile.Lava := by
    unfold World.new at hstamp
    dsimp only at hstamp
    rw [get_tile_mk, if_pos (by simp [hx0, hy0])] at hstamp
    exact hstamp
  have hwt := hlava (p.y * width + p.x) htile
  unfold World.get_tile
  rw [if_pos (by unfold World.check_bounds; exact decide_eq_true ⟨hx, hy⟩)]
  rw [show p.y * w.width + p.x = p.y * width + p.x from by rw [hw']]
  exact hwt

/-- Counterexample to C5 as stated: with the border tile configured as
passable ground without food, one tick whose food regeneration hits the
corner (0,0) leaves that ring tile bearing food, no longer equal to the
configured border tile. -/
theorem border_not_invariant_for_ground_border :
    ((World.new 3 3 (Tile.Ground ⟨false⟩) ⟨1, 0⟩).tick [] [] [⟨0, 0⟩]).map
        (fun w => w.get_tile ⟨0, 0⟩) = some (some (Tile.Ground ⟨true⟩)) ∧
    Tile.Ground ⟨true⟩ ≠ Tile.Ground ⟨false⟩ := by decide

/-- Witness for the amended C5 at the freshly built 3 by 3 lava box. -/
theorem reachable_border_impassable_witness :
    (World.new 3 3 Tile.Lava ⟨1, 1⟩).get_tile ⟨0, 2⟩ = some Tile.Lava :=
  reachable_border_impassable 3 3 ⟨1, 1⟩ _ World.Reachable.base ⟨0, 2⟩
    (by decide) (by decide) (by decide)

/-- C10: `spawn_creature` aborts (the modelled `expect` panic) whenever its
position fails the bounds check; and in any world reachable from a
lava-border `new`, applying CreateMembrane to an existing creature can never
reach that abort: creatures only occupy interior ground cells, so their
one-step saturating relative target always stays on the grid. -/
theorem spawn_abort_unreachable_with_lava_border :
    (∀ (w : World) (p : Position) (c : Creature),
      w.check_bounds p = false → w.spawn_creature p c = none) ∧
    (∀ (width height : Nat) (s : WorldSettings) (w : World),
      width ≤ USIZE_MAX → height ≤ USIZE_MAX →
      World.Reachable (World.new width height Tile.Lava s) w →
      ∀ (p : Position) (c : Creature) (l : Location),
        lookupKey w.creatures p = some c →
        w.apply_action p (.CreateMembrane l) ≠ none) := by
  constructor
  · intro w p c hb
    unfold World.spawn_creature World.get_tile
    rw [if_neg (by simp [hb])]
  · intro width height s w hwm hhm hreach p c l hc
    obtain ⟨hw, hh, hlen0, hlava, hinvp⟩ := stepOk_reachable _ _ hreach
    have hw' : w.width = width := hw
    have hh' : w.height = height := hh
    obtain ⟨hnd, hkeys, hlen⟩ := hinvp (worldInv_new width height Tile.Lava s)
    have hpmem : p ∈ keysOf w.creatures := by
      rw [← containsKey_iff_mem]
      unfold containsKey
      rw [hc]
      rfl
    rcases hkeys p hpmem with ⟨t, ht, hcan⟩
    have hb := get_tile_some_bounds w p t ht
    have hbp : p.x < w.width ∧ p.y < w.height := by
      unfold World.check_bounds at hb
      exact of_decide_eq_true hb
    have hnotring : ¬ (p.x = 0 ∨ p.x = w.width - 1 ∨ p.y = 0 ∨ p.y = w.height - 1) := by
      intro hring
      have hx0 : p.x < width := hw' ▸ hbp.1
      have hy0 : p.y < height := hh' ▸ hbp.2
      have hringT : p.x = 0 ∨ p.x = width - 1 ∨ p.y = 0 ∨ p.y = height - 1 := by
        rw [hw', hh'] at hring
        exact hring
      have hstamp := new_ring width height Tile.Lava s p hx0 hy0 hringT
      have htile : (World.new width height Tile.Lava s).tiles.get? (p.y * width + p.x) =
          some Tile.Lava := by
        unfold World.new at hstamp
        dsimp only at hstamp
        rw [get_tile_mk, if_pos (by simp [hx0, hy0])] at hstamp
        exact hstamp
      have hwt := hlava (p.y * width + p.x) htile
      have hlavap : w.get_tile p = some Tile.Lava := by
        unfold World.get_tile
        rw [if_pos hb]
        rw [show p.y * w.width + p.x = p.y * width + p.x from by rw [hw']]
        exact hwt
      rw [ht] at hlavap
      injection hlavap with hlavap
      rw [hlavap] at hcan
      exact absurd hcan (by simp [Tile.can_contain_creature])
    push_neg at hnotring
    obtain ⟨hx1, hx2, hy1, hy2⟩ := hnotring
    have hxlow : 1 ≤ p.x := Nat.one_le_iff_ne_zero.mpr hx1
    have hxhigh : p.x + 1 < w.width := by
      have := hbp.1
      omega
    have hylow : 1 ≤ p.y := Nat.one_le_iff_ne_zero.mpr hy1
    have hyhigh : p.y + 1 < w.height := by
      have := hbp.2
      omega
    have hwmax : w.width ≤ USIZE_MAX := hw' ▸ hwm
    have hhmax : w.height ≤ USIZE_MAX := hh' ▸ hhm
    have htarget : w.check_bounds (c.relative_position p l) = true := by
      have hxb := hbp.1
      have hyb := hbp.2
      unfold Creature.relative_position Position.cardinal
      cases l.to_cardinal c.rotation with
      | North =>
        show w.check_bounds (p.north 1) = true
        unfold Position.north World.check_bounds
        exact decide_eq_true ⟨hxb, show p.y - 1 < w.height by omega⟩
      | South =>
        show w.check_bounds (p.south 1) = true
        unfold Position.south satAdd World.check_bounds
        have hle : p.y + 1 ≤ USIZE_MAX := by omega
        refine decide_eq_true ⟨hxb, show min (p.y + 1) USIZE_MAX < w.height from ?_⟩
        rw [Nat.min_eq_left hle]
        exact hyhigh
      | East =>
        show w.check_bounds (p.east 1) = true
        unfold Position.east satAdd World.check_bounds
        have hle : p.x + 1 ≤ USIZE_MAX := by omega
        refine decide_eq_true ⟨show min (p.x + 1) USIZE_MAX < w.width from ?_, hyb⟩
        rw [Nat.min_eq_left hle]
        exact hxhigh
      | West =>
        show w.check_bounds (p.west 1) = true
        unfold Position.west World.check_bounds
        exact decide_eq_true ⟨show p.x - 1 < w.width by omega, hyb⟩
    intro hnone
    unfold World.apply_action at hnone
    rw [hc] at hnone
    dsimp only at hnone
    by_cases hcost : (Action.CreateMembrane l).energy_cost ≤ c.energy
    · rw [if_pos hcost] at hnone
      simp only [relative_position_update_energy] at hnone
      unfold World.spawn_creature at hnone
      rw [get_tile_mk] at hnone
      unfold World.check_bounds at htarget
      rw [if_pos htarget] at hnone
      have hcond := of_decide_eq_true htarget
      have hidxlt : (c.relative_position p l).y * w.width + (c.relative_position p l).x <
          w.tiles.length := by
        rw [hlen]
        exact idx_lt w.width w.height _ hcond.1 hcond.2
      cases hsome : w.tiles.get? ((c.relative_position p l).y * w.width + (c.relative_position p l).x) with
      | none =>
        rw [List.get?_eq_none] at hsome
        omega
      | some tile =>
        rw [hsome] at hnone
        dsimp only at hnone
        by_cases hcant : tile.can_contain_creature = true
        · rw [if_pos hcant] at hnone
          exact absurd hnone (by simp)
        · rw [if_neg hcant] at hnone
          exact absurd hnone (by simp)
    · rw [if_neg hcost] at hnone
      exact absurd hnone (by simp)

/-- The reachable world used as the C10 witness: a 3 by 3 lava box after one
tick that spawned one creature in the middle. -/
def wC10 : World :=
  ⟨3, 3,
   [Tile.Lava, Tile.Lava, Tile.Lava, Tile.Lava, Tile.Ground ⟨true⟩,
    Tile.Lava, Tile.Lava, Tile.Lava, Tile.Lava],
   [(⟨1, 1⟩, ⟨1, 100, CardinalDirection.North, some ⟨[], []⟩, 0⟩)], 1, ⟨0, 1⟩⟩

/-- Witness for C10: spawning at the out-of-bounds (5,5) aborts, and the
reachable interior creature of `wC10` can apply CreateMembrane without
reaching the abort. -/
theorem spawn_abort_unreachable_with_lava_border_witness :
    (World.new 3 3 Tile.Lava ⟨0, 1⟩).spawn_creature ⟨5, 5⟩ (Creature.new 0 .North none) = none ∧
    wC10.apply_action ⟨1, 1⟩ (Action.CreateMembrane Location.InFront) ≠ none := by
  constructor
  · exact spawn_abort_unreachable_with_lava_border.1 _ _ _ (by decide)
  · have htick : (World.new 3 3 Tile.Lava ⟨0, 1⟩).tick []
        [(⟨1, 1⟩, CardinalDirection.North, (⟨[], []⟩ : NeuralNetwork))] [] = some wC10 := by decide
    exact spawn_abort_unreachable_with_lava_border.2 3 3 ⟨0, 1⟩ wC10 (by decide) (by decide)
      (World.Reachable.step World.Reachable.base htick) ⟨1, 1⟩
      ⟨1, 100, CardinalDirection.North, some ⟨[], []⟩, 0⟩ Location.InFront (by decide)

end RW
